import Mathlib

/-!
SortBattleBenchmark: a shallow embedding of `SortBattleBenchmark.cpp`

An `int*` array is a `List Int`; every subscript is checked, so a read or a
write outside the allocated block makes the whole computation `none`.
All `int` variables of the source (indices, sizes, loop counters) are `Int`.
Index arithmetic never leaves `[-1, n]`, so it is exact; the only arithmetic
of the source that can leave the 32-bit range is `exp *= 10` in `RadixSort`
(see `mulTen`).

Loops are recursive functions on a fuel counter; the entry points supply the
fuel themselves, and the theorems show that it is never exhausted.
-/

namespace SortBattle

/-! ## Memory model -/

/-- Largest value of a 32-bit `int`. -/
def INT_MAX : Int := 2147483647

/-- Smallest value of a 32-bit `int`. -/
def INT_MIN : Int := -2147483648

/-- Checked read `A[i]`. -/
def rd (A : List Int) (i : Int) : Option Int :=
  if 0 ≤ i then A[i.toNat]? else none

/-- Checked write `A[i] = v`. -/
def wr (A : List Int) (i : Int) (v : Int) : Option (List Int) :=
  if 0 ≤ i ∧ i < A.length then some (A.set i.toNat v) else none

/-- Allocation `new int[n]`; the cells are given the value `0`, and a negative
size is an error. -/
def newArr (n : Int) : Option (List Int) :=
  if 0 ≤ n then some (List.replicate n.toNat 0) else none

/-! ## Insertion sort -/

/-- Inner loop of `InsertionSort`:
`while (j >= 0 && A[j] > key) { A[j + 1] = A[j]; j--; }`.
Returns the array and the final `j`. -/
def insertionInner : Nat → List Int → Int → Int → Option (List Int × Int)
  | 0, _, _, _ => none
  | fuel + 1, A, j, key =>
    if 0 ≤ j then
      (rd A j).bind fun aj =>
        if aj > key then
          (wr A (j + 1) aj).bind fun A1 => insertionInner fuel A1 (j - 1) key
        else some (A, j)
    else some (A, j)

/-- Outer loop of `InsertionSort`: `for (int i = 1; i < n; i++) { ... }`. -/
def insertionOuter : Nat → List Int → Int → Int → Option (List Int)
  | 0, _, _, _ => none
  | fuel + 1, A, n, i =>
    if i < n then
      (rd A i).bind fun key =>
        (insertionInner (i.toNat + 1) A (i - 1) key).bind fun s =>
          (wr s.1 (s.2 + 1) key).bind fun A2 => insertionOuter fuel A2 n (i + 1)
    else some A

/-- `void InsertionSort(int* A, int n)`. -/
def InsertionSort (A : List Int) (n : Int) : Option (List Int) :=
  insertionOuter (n.toNat + 1) A n 1

/-! ## Merge sort -/

/-- Element-wise copy loop `for (int i = 0; i < cnt; i++) B[i] = A[src i];`
(the two buffer fills of `merge`, and the copy-back of `countingSort`). -/
def copyLoop : Nat → List Int → List Int → (Int → Int) → Int → Int → Option (List Int)
  | 0, _, _, _, _, _ => none
  | fuel + 1, A, B, src, cnt, i =>
    if i < cnt then
      (rd A (src i)).bind fun v =>
        (wr B i v).bind fun B1 => copyLoop fuel A B1 src cnt (i + 1)
    else some B

/-- Main loop of `merge`:
`while (i < n1 && j < n2) A[k++] = (L[i] <= R[j]) ? L[i++] : R[j++];`.
Returns the array and the final `i`, `j`, `k`. -/
def mergeMain : Nat → List Int → List Int → List Int → Int → Int → Int → Int → Int →
    Option (List Int × Int × Int × Int)
  | 0, _, _, _, _, _, _, _, _ => none
  | fuel + 1, A, L, R, n1, n2, i, j, k =>
    if i < n1 ∧ j < n2 then
      (rd L i).bind fun li =>
        (rd R j).bind fun rj =>
          if li ≤ rj then
            (wr A k li).bind fun A1 => mergeMain fuel A1 L R n1 n2 (i + 1) j (k + 1)
          else
            (wr A k rj).bind fun A1 => mergeMain fuel A1 L R n1 n2 i (j + 1) (k + 1)
    else some (A, i, j, k)

/-- Drain loop of `merge`: `while (i < n1) A[k++] = L[i++];`.
Returns the array and the final `k`. -/
def drainLoop : Nat → List Int → List Int → Int → Int → Int → Option (List Int × Int)
  | 0, _, _, _, _, _ => none
  | fuel + 1, A, L, n1, i, k =>
    if i < n1 then
      (rd L i).bind fun v =>
        (wr A k v).bind fun A1 => drainLoop fuel A1 L n1 (i + 1) (k + 1)
    else some (A, k)

/-- `void merge(int* A, int p, int q, int r)`. -/
def merge (A : List Int) (p q r : Int) : Option (List Int) :=
  let n1 := q - p + 1
  let n2 := r - q
  (newArr n1).bind fun L0 =>
    (newArr n2).bind fun R0 =>
      (copyLoop (n1.toNat + 1) A L0 (fun i => p + i) n1 0).bind fun L =>
        (copyLoop (n2.toNat + 1) A R0 (fun j => q + j + 1) n2 0).bind fun R =>
          (mergeMain (n1.toNat + n2.toNat + 1) A L R n1 n2 0 0 p).bind fun s =>
            (drainLoop (n1.toNat + 1) s.1 L n1 s.2.1 s.2.2.2).bind fun t =>
              (drainLoop (n2.toNat + 1) t.1 R n2 s.2.2.1 t.2).map fun u => u.1

/-- Recursion of `mergeSort`, with the recursion depth bounded by the fuel. -/
def mergeSortAux : Nat → List Int → Int → Int → Option (List Int)
  | 0, _, _, _ => none
  | fuel + 1, A, p, r =>
    if p < r then
      let q := p + Int.tdiv (r - p) 2
      (mergeSortAux fuel A p q).bind fun A1 =>
        (mergeSortAux fuel A1 (q + 1) r).bind fun A2 => merge A2 p q r
    else some A

/-- `void mergeSort(int* A, int p, int r)`. -/
def mergeSort (A : List Int) (p r : Int) : Option (List Int) :=
  mergeSortAux ((r - p + 1).toNat + 1) A p r

/-! ## Quick sort -/

/-- `std::swap(A[i], A[j])`. -/
def swap (A : List Int) (i j : Int) : Option (List Int) :=
  (rd A i).bind fun a =>
    (rd A j).bind fun b =>
      (wr A i b).bind fun A1 => wr A1 j a

/-- Loop of `partition`:
`for (int j = p; j < r; j++) if (A[j] <= pivot) { i++; std::swap(A[i], A[j]); }`.
Returns the array and the final `i`. -/
def partitionLoop : Nat → List Int → Int → Int → Int → Int → Option (List Int × Int)
  | 0, _, _, _, _, _ => none
  | fuel + 1, A, pivot, r, i, j =>
    if j < r then
      (rd A j).bind fun aj =>
        if aj ≤ pivot then
          (swap A (i + 1) j).bind fun A1 => partitionLoop fuel A1 pivot r (i + 1) (j + 1)
        else partitionLoop fuel A pivot r i (j + 1)
    else some (A, i)

/-- `int partition(int* A, int p, int r)`: the array afterwards and the returned index. -/
def partition (A : List Int) (p r : Int) : Option (List Int × Int) :=
  (rd A r).bind fun pivot =>
    (partitionLoop ((r - p).toNat + 1) A pivot r (p - 1) p).bind fun s =>
      (swap s.1 (s.2 + 1) r).map fun A2 => (A2, s.2 + 1)

/-- Recursion of `QuickSort`, with the recursion depth bounded by the fuel. -/
def QuickSortAux : Nat → List Int → Int → Int → Option (List Int)
  | 0, _, _, _ => none
  | fuel + 1, A, p, r =>
    if p < r then
      (partition A p r).bind fun s =>
        (QuickSortAux fuel s.1 p (s.2 - 1)).bind fun A2 =>
          QuickSortAux fuel A2 (s.2 + 1) r
    else some A

/-- `void QuickSort(int* A, int p, int r)`. -/
def QuickSort (A : List Int) (p r : Int) : Option (List Int) :=
  QuickSortAux ((r - p + 1).toNat + 1) A p r

/-! ## Radix sort -/

/-- C++ `a / b` on `int`: truncation toward zero; division by zero and
`INT_MIN / -1` are errors. -/
def cdiv (a b : Int) : Option Int :=
  if b = 0 ∨ (a = INT_MIN ∧ b = -1) then none else some (Int.tdiv a b)

/-- The bucket index `(a / exp) % 10` of `countingSort`, with C++ truncating `/` and `%`. -/
def digit (a exp : Int) : Option Int :=
  (cdiv a exp).map fun q => Int.tmod q 10

/-- A 32-bit `int` product as stored by two's-complement hardware: the exact value
reduced modulo `2^32` into `[-2^31, 2^31)`. -/
def wrap32 (x : Int) : Int :=
  (x + 2147483648) % 4294967296 - 2147483648

/-- Loop of `getMax`: `for (int i = 1; i < n; i++) if (A[i] > max) max = A[i];`. -/
def getMaxLoop : Nat → List Int → Int → Int → Int → Option Int
  | 0, _, _, _, _ => none
  | fuel + 1, A, n, i, max =>
    if i < n then
      (rd A i).bind fun ai =>
        getMaxLoop fuel A n (i + 1) (if ai > max then ai else max)
    else some max

/-- `int getMax(const int* A, int n)`: reads `A[0]` first, whatever `n` is. -/
def getMax (A : List Int) (n : Int) : Option Int :=
  (rd A 0).bind fun max => getMaxLoop (n.toNat + 1) A n 1 max

/-- First loop of `countingSort`:
`for (int i = 0; i < n; i++) count[(A[i] / exp) % 10]++;`. -/
def countLoop : Nat → List Int → List Int → Int → Int → Int → Option (List Int)
  | 0, _, _, _, _, _ => none
  | fuel + 1, A, count, n, exp, i =>
    if i < n then
      (rd A i).bind fun ai =>
        (digit ai exp).bind fun d =>
          (rd count d).bind fun c =>
            (wr count d (c + 1)).bind fun count1 =>
              countLoop fuel A count1 n exp (i + 1)
    else some count

/-- Second loop of `countingSort`:
`for (int i = 1; i < 10; i++) count[i] += count[i - 1];`. -/
def prefixLoop : Nat → List Int → Int → Option (List Int)
  | 0, _, _ => none
  | fuel + 1, count, i =>
    if i < 10 then
      (rd count i).bind fun ci =>
        (rd count (i - 1)).bind fun cp =>
          (wr count i (ci + cp)).bind fun count1 => prefixLoop fuel count1 (i + 1)
    else some count

/-- Third loop of `countingSort`:
`for (int i = n - 1; i >= 0; i--) { output[count[(A[i] / exp) % 10] - 1] = A[i];
count[(A[i] / exp) % 10]--; }`. `A` is not written in this loop, so `A[i]` and its
digit are read once. Returns `output` and `count`. -/
def placeLoop : Nat → List Int → List Int → List Int → Int → Int →
    Option (List Int × List Int)
  | 0, _, _, _, _, _ => none
  | fuel + 1, A, output, count, exp, i =>
    if i ≥ 0 then
      (rd A i).bind fun ai =>
        (digit ai exp).bind fun d =>
          (rd count d).bind fun c =>
            (wr output (c - 1) ai).bind fun output1 =>
              (rd count d).bind fun c2 =>
                (wr count d (c2 - 1)).bind fun count1 =>
                  placeLoop fuel A output1 count1 exp (i - 1)
    else some (output, count)

/-- `void countingSort(int* A, int n, int exp)`. -/
def countingSort (A : List Int) (n exp : Int) : Option (List Int) :=
  (newArr n).bind fun output0 =>
    (countLoop (n.toNat + 1) A (List.replicate 10 0) n exp 0).bind fun count1 =>
      (prefixLoop 10 count1 1).bind fun count2 =>
        (placeLoop (n.toNat + 1) A output0 count2 exp (n - 1)).bind fun s =>
          copyLoop (n.toNat + 1) s.1 A (fun i => i) n 0

/-- The two arrays a measurement function addresses. -/
inductive Ptr where
  /-- The array `A` of the caller. -/
  | A
  /-- The buffer `copy` allocated by the measurement function. -/
  | copy

/-- The contents of the two arrays. -/
structure Mem where
  /-- The array `A` of the caller. -/
  A : List Int
  /-- The buffer `copy`. -/
  copy : List Int

/-- The array a pointer points to. -/
def Mem.get (m : Mem) : Ptr → List Int
  | Ptr.A => m.A
  | Ptr.copy => m.copy

/-- Memory after the array a pointer points to has been overwritten. -/
def Mem.set (m : Mem) : Ptr → List Int → Mem
  | Ptr.A, v => { A := v, copy := m.copy }
  | Ptr.copy, v => { A := m.A, copy := v }

/-- A call of a function that works in place on the array `p` points to. -/
def callOn (m : Mem) (p : Ptr) (f : List Int → Option (List Int)) : Option Mem :=
  (f (m.get p)).map (m.set p)

/-- `std::copy(src, src + n, dst)`, element by element. -/
def stdCopy (m : Mem) (src dst : Ptr) (n : Int) : Option Mem :=
  (copyLoop (n.toNat + 1) (m.get src) (m.get dst) (fun i => i) n 0).map (m.set dst)

/-- What one measurement leaves behind. -/
structure Measurement where
  /-- The caller's array `A` after the call. -/
  caller : List Int
  /-- The buffer `copy` as it is handed to the strategy. -/
  passed : List Int
  /-- The text written to `result`. -/
  result : String

/-- `void measureTime(void (*sortFunc)(int*, int), int* A, int n, char* result)`:
`copy` is allocated and filled from `A`, the strategy is called on the pointer `copy`,
and `"%lld"` prints the decimal rendering of the duration. -/
def measureTime (sortFunc : List Int → Int → Option (List Int)) (A : List Int) (n : Int)
    (duration : Int) : Option Measurement :=
  (newArr n).bind fun copy0 =>
    (stdCopy { A := A, copy := copy0 } Ptr.A Ptr.copy n).bind fun m1 =>
      (callOn m1 Ptr.copy fun B => sortFunc B n).bind fun m2 =>
        if duration > 300000 then
          some { caller := m2.A, passed := m1.copy, result := "time limit" }
        else
          some { caller := m2.A, passed := m1.copy, result := toString duration }

/-- `void measureTimeMergeSort(int* A, int n, char* result)`. -/
def measureTimeMergeSort (A : List Int) (n : Int) (duration : Int) : Option Measurement :=
  (newArr n).bind fun copy0 =>
    (stdCopy { A := A, copy := copy0 } Ptr.A Ptr.copy n).bind fun m1 =>
      (callOn m1 Ptr.copy fun B => mergeSort B 0 (n - 1)).bind fun m2 =>
        if duration > 300000 then
          some { caller := m2.A, passed := m1.copy, result := "time limit" }
        else
          some { caller := m2.A, passed := m1.copy, result := toString duration }

/-- `void measureTimeQuickSort(int* A, int n, char* result)`. -/
def measureTimeQuickSort (A : List Int) (n : Int) (duration : Int) : Option Measurement :=
  (newArr n).bind fun copy0 =>
    (stdCopy { A := A, copy := copy0 } Ptr.A Ptr.copy n).bind fun m1 =>
      (callOn m1 Ptr.copy fun B => QuickSort B 0 (n - 1)).bind fun m2 =>
        if duration > 300000 then
          some { caller := m2.A, passed := m1.copy, result := "time limit" }
        else
          some { caller := m2.A, passed := m1.copy, result := toString duration }

/-- The values `exp` takes in the header `for (int exp = 1; max / exp > 0; exp *= 10)`
of `RadixSort` when every product is computed in exact integer arithmetic: the current
value, then (while `max / exp > 0`) those from `exp * 10` on. -/
def expValues : Nat → Int → Int → List Int
  | 0, _, _ => []
  | fuel + 1, max, exp =>
    exp :: (match cdiv max exp with
      | some quo => if quo > 0 then expValues fuel max (exp * 10) else []
      | none => [])

/-! ## Array generator and main

`rand()` is the process-wide generator: its state is the stream `rnd` of the values
it is still going to return, and every call takes the head of the stream. The clock is
the stream `clk` of the durations, in milliseconds, of the measurements still to come.
The file is the list of the lines written so far (every `<<` chain of `main` ends with
one line break). -/

/-- Loop of `generateRandomArray`:
`for (int i = 0; i < size; i++) arr[i] = rand() % (INT_MAX / 2);`.
Returns the array and the state of `rand()`. -/
def genLoop : Nat → List Int → (Nat → Int) → Int → Int → Option (List Int × (Nat → Int))
  | 0, _, _, _, _ => none
  | fuel + 1, arr, rnd, size, i =>
    if i < size then
      (wr arr i (Int.tmod (rnd 0) (Int.tdiv INT_MAX 2))).bind fun arr1 =>
        genLoop fuel arr1 (fun k => rnd (k + 1)) size (i + 1)
    else some (arr, rnd)

/-- `int* generateRandomArray(int size)`: the array and the state of `rand()` afterwards. -/
def generateRandomArray (size : Int) (rnd : Nat → Int) : Option (List Int × (Nat → Int)) :=
  (newArr size).bind fun arr => genLoop (size.toNat + 1) arr rnd size 0

/-- The loop `countLoop`, recording every bucket index `(A[i] / exp) % 10`. -/
def countLoopLog : Nat → List Int → List Int → Int → Int → Int →
    Option (List Int × List Int)
  | 0, _, _, _, _, _ => none
  | fuel + 1, A, count, n, exp, i =>
    if i < n then
      (rd A i).bind fun ai =>
        (digit ai exp).bind fun d =>
          (rd count d).bind fun c =>
            (wr count d (c + 1)).bind fun count1 =>
              (countLoopLog fuel A count1 n exp (i + 1)).map fun s => (s.1, d :: s.2)
    else some (count, [])

/-- The loop `placeLoop`, recording every bucket index and every index
`count[(A[i] / exp) % 10] - 1` of `output` that is written. Returns `output`, `count`,
the bucket indices and the write indices. -/
def placeLoopLog : Nat → List Int → List Int → List Int → Int → Int →
    Option (List Int × List Int × List Int × List Int)
  | 0, _, _, _, _, _ => none
  | fuel + 1, A, output, count, exp, i =>
    if i ≥ 0 then
      (rd A i).bind fun ai =>
        (digit ai exp).bind fun d =>
          (rd count d).bind fun c =>
            (wr output (c - 1) ai).bind fun output1 =>
              (rd count d).bind fun c2 =>
                (wr count d (c2 - 1)).bind fun count1 =>
                  (placeLoopLog fuel A output1 count1 exp (i - 1)).map fun s =>
                    (s.1, s.2.1, d :: s.2.2.1, (c - 1) :: s.2.2.2)
    else some (output, count, [], [])

/-- The function `countingSort`, recording the bucket indices of its first and third
loop and the write indices of its third loop. -/
def countingSortLog (A : List Int) (n exp : Int) :
    Option (List Int × List Int × List Int) :=
  (newArr n).bind fun output0 =>
    (countLoopLog (n.toNat + 1) A (List.replicate 10 0) n exp 0).bind fun s1 =>
      (prefixLoop 10 s1.1 1).bind fun count2 =>
        (placeLoopLog (n.toNat + 1) A output0 count2 exp (n - 1)).bind fun s =>
          (copyLoop (n.toNat + 1) s.1 A (fun i => i) n 0).map fun A1 =>
            (A1, s1.2 ++ s.2.2.1, s.2.2.2)

/-- The bucket index `(a / exp) % 10` as a pure function (`digit` without its error cases). -/
def dig (exp a : Int) : Int := Int.tmod (Int.tdiv a exp) 10

/-- Concatenation of the buckets `0, ..., d - 1` of `A`, each in the order of `A`. -/
def buckets (exp : Int) (A : List Int) : Nat → List Int
  | 0 => []
  | d + 1 => buckets exp A d ++ A.filter (fun a => decide (dig exp a = (d : Int)))

/-- Number of elements of `l` whose bucket index is `d`. -/
def cntEq (exp : Int) (l : List Int) (d : Nat) : Nat :=
  l.countP (fun a => decide (dig exp a = (d : Int)))

/-- Number of elements of `l` whose bucket index is below `d`. -/
def cntLt (exp : Int) (l : List Int) (d : Nat) : Nat :=
  l.countP (fun a => decide (dig exp a < (d : Int)))

/-- The ten-cell array `count` holds the values `f 0, ..., f 9`. -/
def Holds (count : List Int) (f : Nat → Int) : Prop :=
  count.length = 10 ∧ ∀ d : Nat, d < 10 → count[d]? = some (f d)

/-- The part `A[p..r]` of an array (both bounds included). -/
def slice (A : List Int) (p r : Int) : List Int :=
  (A.drop p.toNat).take (r - p + 1).toNat

/-- The comparison `L[i] <= R[j]` of `merge`, as a boolean order (used to state
what `merge` computes). -/
def leB : Int → Int → Bool := fun a b => decide (a ≤ b)

/-! ## Basic facts about checked access -/

theorem rd_append_cons (X Y : List Int) (a : Int) (i : Int) (h : i = X.length) :
    rd (X ++ a :: Y) i = some a := by
  subst h
  have h1 : (X ++ a :: Y)[X.length]? = some a := by
    rw [List.getElem?_append_right (le_refl _)]; simp
  simp only [rd, Int.toNat_ofNat, h1]
  simp

theorem wr_append_cons (X Y : List Int) (a v : Int) (i : Int) (h : i = X.length) :
    wr (X ++ a :: Y) i v = some (X ++ v :: Y) := by
  subst h
  have : (X.length : Int) < (X.length : Int) + (Y.length + 1) := by omega
  simp [wr, this]

theorem rd_natCast (A : List Int) (k : Nat) : rd A (k : Int) = A[k]? := by
  simp [rd]

theorem rd_mid (X M Y : List Int) (t : Nat) (i : Int) (h : i = (X.length : Int) + t)
    (ht : t < M.length) : rd (X ++ M ++ Y) i = M[t]? := by
  subst h
  have e : (X.length : Int) + (t : Int) = ((X.length + t : Nat) : Int) := by simp
  rw [e, rd_natCast, List.append_assoc, List.getElem?_append_right (by omega),
    List.getElem?_append_left (by omega)]
  congr 1
  omega

theorem newArr_natCast (k : Nat) : newArr (k : Int) = some (List.replicate k 0) := by
  simp [newArr]

/-! ## Insertion sort: correctness -/

theorem insertionInner_spec (key : Int) (S : List Int) :
    ∀ (P : List Int) (h : Int), List.Sorted (· ≤ ·) P →
      ∃ P1 P2 h', P = P1 ++ P2 ∧ (∀ x ∈ P1, x ≤ key) ∧ (∀ x ∈ P2, key < x) ∧
        insertionInner (P.length + 1) (P ++ h :: S) ((P.length : Int) - 1) key
          = some (P1 ++ h' :: (P2 ++ S), (P1.length : Int) - 1) := by
  intro P
  induction P using List.reverseRecOn generalizing S with
  | nil =>
    intro h _
    exact ⟨[], [], h, rfl, by simp, by simp, by simp [insertionInner]⟩
  | append_singleton P x ih =>
    intro h hs
    have hs' : List.Sorted (· ≤ ·) P ∧ ∀ y ∈ P, y ≤ x := by
      have := List.pairwise_append.1 hs
      exact ⟨this.1, fun y hy => this.2.2 y hy x (by simp)⟩
    have hj : (0 : Int) ≤ ((P ++ [x]).length : Int) - 1 := by simp
    have hrd : rd (P ++ [x] ++ h :: S) (((P ++ [x]).length : Int) - 1) = some x := by
      rw [List.append_assoc]
      exact rd_append_cons P _ x _ (by simp)
    by_cases hx : x > key
    · obtain ⟨P1, P2, h', hP, h1, h2, hrun⟩ := ih (x :: S) x hs'.1
      refine ⟨P1, P2 ++ [x], h', by rw [hP, List.append_assoc], h1, ?_, ?_⟩
      · intro y hy
        rcases List.mem_append.1 hy with hy | hy
        · exact h2 y hy
        · simp at hy; omega
      · have hwr : wr (P ++ [x] ++ h :: S) (((P ++ [x]).length : Int) - 1 + 1) x
            = some (P ++ x :: x :: S) := by
          have : P ++ [x] ++ h :: S = (P ++ [x]) ++ h :: S := rfl
          rw [this, wr_append_cons (P ++ [x]) S h x _ (by simp)]
          simp
        have hlen : (P ++ [x]).length + 1 = (P.length + 1) + 1 := by simp
        rw [hlen, insertionInner]
        simp only [hj, if_true, hrd, Option.some_bind, hx, hwr]
        have hidx : ((P ++ [x]).length : Int) - 1 - 1 = (P.length : Int) - 1 := by
          simp
        rw [hidx, hrun]
        simp
    · refine ⟨P ++ [x], [], h, by simp, ?_, by simp, ?_⟩
      · intro y hy
        rcases List.mem_append.1 hy with hy | hy
        · have := hs'.2 y hy; omega
        · simp at hy; omega
      · have hlen : (P ++ [x]).length + 1 = (P.length + 1) + 1 := by simp
        rw [hlen, insertionInner]
        simp only [hj, if_true, hrd, Option.some_bind, hx, if_false]
        simp

theorem insertionOuter_spec :
    ∀ (T P : List Int) (fuel : Nat), T.length + 1 ≤ fuel → List.Sorted (· ≤ ·) P →
      ∃ B, insertionOuter fuel (P ++ T) ((P.length : Int) + T.length) P.length = some B ∧
        List.Sorted (· ≤ ·) B ∧ B.Perm (P ++ T) := by
  intro T
  induction T with
  | nil =>
    intro P fuel hf hs
    obtain ⟨f, rfl⟩ : ∃ f, fuel = f + 1 := ⟨fuel - 1, by omega⟩
    exact ⟨P, by simp [insertionOuter], hs, by simp⟩
  | cons key T ih =>
    intro P fuel hf hs
    obtain ⟨f, rfl⟩ : ∃ f, fuel = f + 1 := ⟨fuel - 1, by omega⟩
    obtain ⟨P1, P2, h', hP, h1, h2, hrun⟩ := insertionInner_spec key T P key hs
    have hs12 := List.pairwise_append.1 (hP ▸ hs)
    have hsorted : List.Sorted (· ≤ ·) (P1 ++ key :: P2) := by
      refine List.pairwise_append.2 ⟨hs12.1, ?_, ?_⟩
      · exact List.pairwise_cons.2 ⟨fun y hy => le_of_lt (h2 y hy), hs12.2.1⟩
      · intro a ha b hb
        rcases List.mem_cons.1 hb with hb | hb
        · subst hb; exact h1 a ha
        · exact hs12.2.2 a ha b hb
    have hlen : (P1 ++ key :: P2).length = P.length + 1 := by
      rw [hP]; simp; omega
    have hf' : T.length + 1 ≤ f := by simp at hf; omega
    obtain ⟨B, hB, hBs, hBp⟩ := ih (P1 ++ key :: P2) f hf' hsorted
    refine ⟨B, ?_, hBs, ?_⟩
    · rw [insertionOuter]
      have hlt : (P.length : Int) < (P.length : Int) + ((key :: T).length : Int) := by
        simp
      simp only [hlt, if_true, rd_append_cons P T key _ rfl, Option.some_bind]
      have htn : (P.length : Int).toNat + 1 = P.length + 1 := by simp
      rw [htn, hrun]
      simp only [Option.some_bind]
      rw [wr_append_cons P1 (P2 ++ T) h' key _ (by simp)]
      simp only [Option.some_bind]
      have e1 : P1 ++ key :: (P2 ++ T) = (P1 ++ key :: P2) ++ T := by simp
      have e2 : (P.length : Int) + ((key :: T).length : Int)
          = ((P1 ++ key :: P2).length : Int) + (T.length : Int) := by
        rw [hlen]; simp; omega
      have e3 : (P.length : Int) + 1 = ((P1 ++ key :: P2).length : Int) := by
        rw [hlen]; simp
      rw [e1, e2, e3]
      exact hB
    · refine hBp.trans ?_
      rw [hP]
      have e1 : P1 ++ key :: P2 ++ T = P1 ++ key :: (P2 ++ T) := by simp
      have e2 : P1 ++ P2 ++ key :: T = P1 ++ (P2 ++ key :: T) := by simp
      rw [e1, e2]
      exact List.Perm.append_left P1 List.perm_middle.symm

theorem InsertionSort_spec (A : List Int) :
    ∃ B, InsertionSort A A.length = some B ∧ List.Sorted (· ≤ ·) B ∧ B.Perm A := by
  cases A with
  | nil => exact ⟨[], by simp [InsertionSort, insertionOuter], by simp, by simp⟩
  | cons a T =>
    obtain ⟨B, hB, hs, hp⟩ := insertionOuter_spec T [a] ((a :: T).length + 1)
      (by simp) (by simp)
    refine ⟨B, ?_, hs, by simpa using hp⟩
    unfold InsertionSort
    have e : (((a :: T).length : Nat) : Int).toNat + 1 = (a :: T).length + 1 := by simp
    have e2 : (((a :: T).length : Nat) : Int) = (([a] : List Int).length : Int) + T.length := by
      simp; omega
    rw [e, e2]
    simpa using hB

/-! ## Merge sort: correctness -/

theorem copyLoop_spec (A : List Int) (src : Int → Int) :
    ∀ (B2 V B1 : List Int) (fuel : Nat), B2.length = V.length → B2.length + 1 ≤ fuel →
      (∀ t : Nat, t < V.length → rd A (src ((B1.length : Int) + t)) = V[t]?) →
      copyLoop fuel A (B1 ++ B2) src ((B1.length : Int) + B2.length) B1.length
        = some (B1 ++ V) := by
  intro B2
  induction B2 with
  | nil =>
    intro V B1 fuel hl hf _
    obtain ⟨f, rfl⟩ : ∃ f, fuel = f + 1 := ⟨fuel - 1, by omega⟩
    have hV : V = [] := List.length_eq_zero.1 (by simpa using hl.symm)
    simp [copyLoop, hV]
  | cons b B2 ih =>
    intro V B1 fuel hl hf hrd
    obtain ⟨f, rfl⟩ : ∃ f, fuel = f + 1 := ⟨fuel - 1, by omega⟩
    cases V with
    | nil => simp at hl
    | cons v V =>
      have h0 := hrd 0 (by simp)
      simp only [Nat.cast_zero, add_zero, List.getElem?_cons_zero] at h0
      have hlt : (B1.length : Int) < (B1.length : Int) + ((b :: B2).length : Int) := by
        simp
      rw [copyLoop]
      simp only [hlt, if_true, h0, Option.some_bind,
        wr_append_cons B1 B2 b v _ rfl]
      have hih := ih V (B1 ++ [v]) f (by simpa using hl) (by simp at hf; omega) (by
        intro t ht
        have := hrd (t + 1) (by simp; omega)
        simp only [List.getElem?_cons_succ] at this
        rw [← this]
        congr 2
        simp; omega)
      have e1 : B1 ++ v :: B2 = (B1 ++ [v]) ++ B2 := by simp
      have e2 : (B1.length : Int) + ((b :: B2).length : Int)
          = ((B1 ++ [v]).length : Int) + (B2.length : Int) := by simp; omega
      have e3 : (B1.length : Int) + 1 = ((B1 ++ [v]).length : Int) := by simp
      rw [e1, e2, e3, hih]
      simp

theorem drainLoop_spec (Y : List Int) :
    ∀ (L2 Z L1 X : List Int) (fuel : Nat), Z.length = L2.length → L2.length + 1 ≤ fuel →
      drainLoop fuel (X ++ Z ++ Y) (L1 ++ L2) ((L1.length : Int) + L2.length) L1.length X.length
        = some (X ++ L2 ++ Y, (X.length : Int) + L2.length) := by
  intro L2
  induction L2 with
  | nil =>
    intro Z L1 X fuel hl hf
    obtain ⟨f, rfl⟩ : ∃ f, fuel = f + 1 := ⟨fuel - 1, by omega⟩
    have hZ : Z = [] := List.length_eq_zero.1 (by simpa using hl)
    simp [drainLoop, hZ]
  | cons l L2 ih =>
    intro Z L1 X fuel hl hf
    obtain ⟨f, rfl⟩ : ∃ f, fuel = f + 1 := ⟨fuel - 1, by omega⟩
    cases Z with
    | nil => simp at hl
    | cons z Z =>
      have hlt : (L1.length : Int) < (L1.length : Int) + ((l :: L2).length : Int) := by
        simp
      have eA : X ++ z :: Z ++ Y = X ++ z :: (Z ++ Y) := by simp
      rw [drainLoop]
      simp only [hlt, if_true, rd_append_cons L1 L2 l _ rfl, Option.some_bind, eA,
        wr_append_cons X (Z ++ Y) z l _ rfl]
      have hih := ih Z (L1 ++ [l]) (X ++ [l]) f (by simpa using hl) (by simp at hf; omega)
      have e1 : X ++ l :: (Z ++ Y) = (X ++ [l]) ++ Z ++ Y := by simp
      have e0 : L1 ++ l :: L2 = (L1 ++ [l]) ++ L2 := by simp
      have e2 : (L1.length : Int) + ((l :: L2).length : Int)
          = ((L1 ++ [l]).length : Int) + (L2.length : Int) := by simp; omega
      have e3 : (L1.length : Int) + 1 = ((L1 ++ [l]).length : Int) := by simp
      have e4 : (X.length : Int) + 1 = ((X ++ [l]).length : Int) := by simp
      rw [e0, e1, e2, e3, e4, hih]
      simp; omega

theorem mergeMain_spec (Y : List Int) :
    ∀ (n : Nat) (L2 R2 Z L1 R1 X : List Int) (fuel : Nat),
      L2.length + R2.length = n → Z.length = n → n + 1 ≤ fuel →
      ∃ La Lb Ra Rb M Z', L2 = La ++ Lb ∧ R2 = Ra ++ Rb ∧ (Lb = [] ∨ Rb = []) ∧
        M.length = La.length + Ra.length ∧ Z'.length = Lb.length + Rb.length ∧
        M ++ List.merge Lb Rb leB = List.merge L2 R2 leB ∧
        mergeMain fuel (X ++ Z ++ Y) (L1 ++ L2) (R1 ++ R2)
            ((L1.length : Int) + L2.length) ((R1.length : Int) + R2.length)
            L1.length R1.length X.length
          = some (X ++ M ++ Z' ++ Y, (L1.length : Int) + La.length,
              (R1.length : Int) + Ra.length, (X.length : Int) + M.length) := by
  intro n
  induction n with
  | zero =>
    intro L2 R2 Z L1 R1 X fuel hn hz hf
    obtain ⟨f, rfl⟩ : ∃ f, fuel = f + 1 := ⟨fuel - 1, by omega⟩
    have hL : L2 = [] := List.length_eq_zero.1 (by omega)
    have hR : R2 = [] := List.length_eq_zero.1 (by omega)
    have hZ : Z = [] := List.length_eq_zero.1 hz
    subst hL hR hZ
    exact ⟨[], [], [], [], [], [], by simp, by simp, by simp, by simp, by simp, by simp,
      by simp [mergeMain]⟩
  | succ n ih =>
    intro L2 R2 Z L1 R1 X fuel hn hz hf
    obtain ⟨f, rfl⟩ : ∃ f, fuel = f + 1 := ⟨fuel - 1, by omega⟩
    cases L2 with
    | nil =>
      exact ⟨[], [], [], R2, [], Z, by simp, by simp, by simp, by simp,
        by simpa using hz.trans hn.symm, by simp, by simp [mergeMain]⟩
    | cons l L2 =>
      cases R2 with
      | nil =>
        exact ⟨[], l :: L2, [], [], [], Z, by simp, by simp, by simp, by simp,
          by simpa using hz.trans hn.symm, by simp, by simp [mergeMain]⟩
      | cons r R2 =>
        cases Z with
        | nil => simp at hz
        | cons z Z =>
          have hc : (L1.length : Int) < (L1.length : Int) + ((l :: L2).length : Int) ∧
              (R1.length : Int) < (R1.length : Int) + ((r :: R2).length : Int) := by
            simp
          have eA : X ++ z :: Z ++ Y = X ++ z :: (Z ++ Y) := by simp
          rw [mergeMain]
          simp only [hc, and_self, if_true, rd_append_cons L1 L2 l _ rfl,
            rd_append_cons R1 R2 r _ rfl, Option.some_bind, eA]
          by_cases hle : l ≤ r
          · obtain ⟨La, Lb, Ra, Rb, M, Z', hLa, hRa, hor, hM, hZ', hmerge, hrun⟩ :=
              ih L2 (r :: R2) Z (L1 ++ [l]) R1 (X ++ [l]) f
                (by simp at hn ⊢; omega) (by simpa using hz) (by omega)
            refine ⟨l :: La, Lb, Ra, Rb, l :: M, Z', by simp [hLa], hRa, hor,
              by simp [hM]; omega, hZ', ?_, ?_⟩
            · rw [List.cons_merge_cons]
              simp [leB, hle, ← hmerge]
            · simp only [hle, if_true, wr_append_cons X (Z ++ Y) z l _ rfl,
                Option.some_bind]
              have e0 : L1 ++ l :: L2 = (L1 ++ [l]) ++ L2 := by simp
              have e1 : X ++ l :: (Z ++ Y) = (X ++ [l]) ++ Z ++ Y := by simp
              have e2 : (L1.length : Int) + ((l :: L2).length : Int)
                  = ((L1 ++ [l]).length : Int) + (L2.length : Int) := by simp; omega
              have e3 : (L1.length : Int) + 1 = ((L1 ++ [l]).length : Int) := by simp
              have e4 : (X.length : Int) + 1 = ((X ++ [l]).length : Int) := by simp
              rw [e0, e1, e2, e3, e4, hrun]
              simp; omega
          · obtain ⟨La, Lb, Ra, Rb, M, Z', hLa, hRa, hor, hM, hZ', hmerge, hrun⟩ :=
              ih (l :: L2) R2 Z L1 (R1 ++ [r]) (X ++ [r]) f
                (by simp at hn ⊢; omega) (by simpa using hz) (by omega)
            refine ⟨La, Lb, r :: Ra, Rb, r :: M, Z', hLa, by simp [hRa], hor,
              by simp [hM]; omega, hZ', ?_, ?_⟩
            · rw [List.cons_merge_cons]
              simp [leB, hle, ← hmerge]
            · simp only [hle, if_false, wr_append_cons X (Z ++ Y) z r _ rfl,
                Option.some_bind]
              have e0 : R1 ++ r :: R2 = (R1 ++ [r]) ++ R2 := by simp
              have e1 : X ++ r :: (Z ++ Y) = (X ++ [r]) ++ Z ++ Y := by simp
              have e2 : (R1.length : Int) + ((r :: R2).length : Int)
                  = ((R1 ++ [r]).length : Int) + (R2.length : Int) := by simp; omega
              have e3 : (R1.length : Int) + 1 = ((R1 ++ [r]).length : Int) := by simp
              have e4 : (X.length : Int) + 1 = ((X ++ [r]).length : Int) := by simp
              rw [e0, e1, e2, e3, e4, hrun]
              simp; omega

theorem merge_spec (X Lh Rh Y : List Int) (p q r : Int) (hp : p = X.length)
    (hq : q = p + Lh.length - 1) (hr : r = q + Rh.length) :
    merge (X ++ Lh ++ Rh ++ Y) p q r = some (X ++ List.merge Lh Rh leB ++ Y) := by
  have hn1 : q - p + 1 = (Lh.length : Int) := by omega
  have hn2 : r - q = (Rh.length : Int) := by omega
  have hcL := copyLoop_spec (X ++ Lh ++ Rh ++ Y) (fun i => p + i)
    (List.replicate Lh.length 0) Lh [] (Lh.length + 1) (by simp) (by simp) (by
      intro t ht
      have := rd_mid X Lh (Rh ++ Y) t (p + (0 + (t : Int))) (by omega) ht
      simpa using this)
  have hcR := copyLoop_spec (X ++ Lh ++ Rh ++ Y) (fun j => q + j + 1)
    (List.replicate Rh.length 0) Rh [] (Rh.length + 1) (by simp) (by simp) (by
      intro t ht
      have := rd_mid (X ++ Lh) Rh Y t (q + (0 + (t : Int)) + 1) (by simp; omega) ht
      simpa using this)
  obtain ⟨La, Lb, Ra, Rb, M, Z', hLa, hRa, hor, hM, hZ', hmerge, hrun⟩ :=
    mergeMain_spec Y (Lh.length + Rh.length) Lh Rh (Lh ++ Rh) [] [] X
      (Lh.length + Rh.length + 1) rfl (by simp) (by omega)
  have hZsplit : Z' = Z'.take Lb.length ++ Z'.drop Lb.length := by simp
  have hZa : (Z'.take Lb.length).length = Lb.length := by
    rw [List.length_take]; omega
  have hZb : (Z'.drop Lb.length).length = Rb.length := by
    rw [List.length_drop]; omega
  have hd1 := drainLoop_spec (Z'.drop Lb.length ++ Y) Lb (Z'.take Lb.length) La (X ++ M)
    (Lh.length + 1) hZa (by rw [hLa]; simp)
  have hd2 := drainLoop_spec Y Rb (Z'.drop Lb.length) Ra (X ++ M ++ Lb)
    (Rh.length + 1) hZb (by rw [hRa]; simp)
  have hLR : Lb ++ Rb = List.merge Lb Rb leB := by
    rcases hor with h | h <;> simp [h]
  simp only [List.nil_append, List.length_nil, Nat.cast_zero, zero_add,
    List.length_replicate] at hcL hcR hrun
  have eA1 : X ++ M ++ Z' ++ Y
      = X ++ M ++ Z'.take Lb.length ++ (Z'.drop Lb.length ++ Y) := by
    simp only [List.append_assoc]
    rw [← List.append_assoc (Z'.take Lb.length), List.take_append_drop]
  have eL : (La.length : Int) + Lb.length = Lh.length := by rw [hLa]; simp
  have eR : (Ra.length : Int) + Rb.length = Rh.length := by rw [hRa]; simp
  have eA2 : X ++ M ++ Lb ++ (Z'.drop Lb.length ++ Y)
      = X ++ M ++ Lb ++ Z'.drop Lb.length ++ Y := by simp
  have ek : ((X ++ M).length : Int) + Lb.length = ((X ++ M ++ Lb).length : Int) := by
    simp only [List.length_append, Nat.cast_add]
  have ek0 : p + (M.length : Int) = ((X ++ M).length : Int) := by simp; omega
  rw [← hLa, eL] at hd1
  rw [← hRa, eR] at hd2
  unfold merge
  simp only [hn1, hn2, newArr_natCast, Option.some_bind, Int.toNat_ofNat, hcL, hcR]
  rw [← hp, ← List.append_assoc X Lh Rh] at hrun
  rw [hrun]
  simp only [Option.some_bind]
  rw [eA1, ek0, hd1]
  simp only [Option.some_bind]
  rw [eA2, ek, hd2]
  simp only [Option.map_some']
  rw [← hmerge, ← hLR]
  simp

theorem sorted_merge_leB {L R : List Int} (hL : List.Sorted (· ≤ ·) L)
    (hR : List.Sorted (· ≤ ·) R) : List.Sorted (· ≤ ·) (List.merge L R leB) :=
  List.Sorted.merge hL hR

theorem mergeSortAux_spec :
    ∀ (fuel : Nat) (M X Y : List Int) (p r : Int), M.length + 1 ≤ fuel →
      p = X.length → r = p + M.length - 1 →
      ∃ M', mergeSortAux fuel (X ++ M ++ Y) p r = some (X ++ M' ++ Y) ∧
        List.Sorted (· ≤ ·) M' ∧ M'.Perm M := by
  intro fuel
  induction fuel with
  | zero => intro M X Y p r hf; omega
  | succ f ih =>
    intro M X Y p r hf hp hr
    rw [mergeSortAux]
    by_cases hlt : p < r
    · simp only [hlt, if_true]
      have hdiv : Int.tdiv (r - p) 2 = (r - p) / 2 :=
        Int.tdiv_eq_ediv (by omega) (by norm_num)
      rw [hdiv]
      obtain ⟨k, hk⟩ : ∃ k : Nat, (k : Int) = (r - p) / 2 + 1 :=
        ⟨((r - p) / 2 + 1).toNat, by omega⟩
      have hk1 : 1 ≤ k := by omega
      have hk2 : k < M.length := by omega
      have hq : p + (r - p) / 2 = p + ((M.take k).length : Int) - 1 := by
        rw [List.length_take]; omega
      have hM : M = M.take k ++ M.drop k := (List.take_append_drop k M).symm
      obtain ⟨M1, h1, hs1, hp1⟩ := ih (M.take k) X (M.drop k ++ Y) p (p + (r - p) / 2)
        (by rw [List.length_take]; omega) hp hq
      have hlen1 : M1.length = k := by
        rw [hp1.length_eq, List.length_take]; omega
      obtain ⟨M2, h2, hs2, hp2⟩ := ih (M.drop k) (X ++ M1) Y (p + (r - p) / 2 + 1) r
        (by rw [List.length_drop]; omega)
        (by rw [List.length_append, hlen1]; push_cast; omega)
        (by rw [List.length_drop]; omega)
      have hm := merge_spec X M1 M2 Y p (p + (r - p) / 2) r hp
        (by rw [hlen1]; omega)
        (by rw [hp2.length_eq, List.length_drop]; omega)
      refine ⟨List.merge M1 M2 leB, ?_, sorted_merge_leB hs1 hs2, ?_⟩
      · have eA : X ++ M ++ Y = X ++ M.take k ++ (M.drop k ++ Y) := by
          rw [List.append_assoc, List.append_assoc, ← List.append_assoc (M.take k),
            List.take_append_drop]
        have eB : X ++ M1 ++ (M.drop k ++ Y) = X ++ M1 ++ M.drop k ++ Y := by simp
        rw [eA, h1]
        simp only [Option.some_bind]
        rw [eB, h2]
        simp only [Option.some_bind]
        exact hm
      · refine (List.perm_merge leB M1 M2).trans ?_
        conv_rhs => rw [hM]
        exact List.Perm.append hp1 hp2
    · simp only [hlt, if_false]
      refine ⟨M, rfl, ?_, List.Perm.refl _⟩
      have : M.length ≤ 1 := by omega
      match M, this with
      | [], _ => simp
      | [a], _ => simp

theorem mergeSort_spec (A : List Int) :
    ∃ B, mergeSort A 0 ((A.length : Int) - 1) = some B ∧
      List.Sorted (· ≤ ·) B ∧ B.Perm A := by
  obtain ⟨M', h, hs, hp⟩ := mergeSortAux_spec (A.length + 1) A [] [] 0
    ((A.length : Int) - 1) (le_refl _) (by simp) (by simp)
  refine ⟨M', ?_, hs, hp⟩
  unfold mergeSort
  have e : ((A.length : Int) - 1 - 0 + 1).toNat + 1 = A.length + 1 := by omega
  rw [e]
  simpa using h

/-! ## Quick sort: correctness -/

theorem swap_self (X Y : List Int) (a : Int) (i : Int) (h : i = X.length) :
    swap (X ++ a :: Y) i i = some (X ++ a :: Y) := by
  simp [swap, rd_append_cons X Y a i h, wr_append_cons X Y a a i h]

theorem swap_far (X M Y : List Int) (a b : Int) (i j : Int) (hi : i = X.length)
    (hj : j = (X.length : Int) + 1 + M.length) :
    swap (X ++ a :: M ++ b :: Y) i j = some (X ++ b :: M ++ a :: Y) := by
  have e1 : X ++ a :: M ++ b :: Y = X ++ a :: (M ++ b :: Y) := by simp
  have e2 : X ++ a :: M ++ b :: Y = (X ++ a :: M) ++ b :: Y := by simp
  have e3 : X ++ b :: (M ++ b :: Y) = (X ++ b :: M) ++ b :: Y := by simp
  have hj1 : j = ((X ++ a :: M).length : Int) := by simp; omega
  have hj2 : j = ((X ++ b :: M).length : Int) := by simp; omega
  have r1 : rd (X ++ a :: M ++ b :: Y) i = some a := by
    rw [e1]; exact rd_append_cons X _ a i hi
  have r2 : rd (X ++ a :: M ++ b :: Y) j = some b := by
    rw [e2]; exact rd_append_cons _ Y b j hj1
  have w1 : wr (X ++ a :: M ++ b :: Y) i b = some (X ++ b :: (M ++ b :: Y)) := by
    rw [e1]; exact wr_append_cons X _ a b i hi
  have w2 : wr (X ++ b :: (M ++ b :: Y)) j a = some (X ++ b :: M ++ a :: Y) := by
    rw [e3, wr_append_cons _ Y b a j hj2]
  unfold swap
  rw [r1, Option.some_bind, r2, Option.some_bind, w1, Option.some_bind, w2]

theorem partitionLoop_spec (pivot : Int) (X Y : List Int) :
    ∀ (Rest Lo Hi : List Int) (fuel : Nat) (r i j : Int), Rest.length + 1 ≤ fuel →
      i = (X.length : Int) + Lo.length - 1 → j = (X.length : Int) + Lo.length + Hi.length →
      r = j + Rest.length → (∀ x ∈ Lo, x ≤ pivot) → (∀ x ∈ Hi, pivot < x) →
      ∃ Lo' Hi', partitionLoop fuel (X ++ Lo ++ Hi ++ Rest ++ pivot :: Y) pivot r i j
          = some (X ++ Lo' ++ Hi' ++ pivot :: Y, (X.length : Int) + Lo'.length - 1) ∧
        (∀ x ∈ Lo', x ≤ pivot) ∧ (∀ x ∈ Hi', pivot < x) ∧
        (Lo' ++ Hi').Perm (Lo ++ Hi ++ Rest) := by
  intro Rest
  induction Rest with
  | nil =>
    intro Lo Hi fuel r i j hf hi hj hr hLo hHi
    obtain ⟨f, rfl⟩ : ∃ f, fuel = f + 1 := ⟨fuel - 1, by omega⟩
    refine ⟨Lo, Hi, ?_, hLo, hHi, by simp⟩
    have : ¬ j < r := by simp at hr; omega
    simp [partitionLoop, this, hi]
  | cons a Rest ih =>
    intro Lo Hi fuel r i j hf hi hj hr hLo hHi
    obtain ⟨f, rfl⟩ : ∃ f, fuel = f + 1 := ⟨fuel - 1, by omega⟩
    have hjr : j < r := by simp at hr; omega
    have eA : X ++ Lo ++ Hi ++ a :: Rest ++ pivot :: Y
        = (X ++ Lo ++ Hi) ++ a :: (Rest ++ pivot :: Y) := by simp
    have hrd : rd (X ++ Lo ++ Hi ++ a :: Rest ++ pivot :: Y) j = some a := by
      rw [eA]; exact rd_append_cons _ _ a j (by simp; omega)
    rw [partitionLoop]
    simp only [hjr, if_true, hrd, Option.some_bind]
    by_cases ha : a ≤ pivot
    · simp only [ha, if_true]
      have hLo' : ∀ x ∈ Lo ++ [a], x ≤ pivot := by
        intro x hx
        rcases List.mem_append.1 hx with hx | hx
        · exact hLo x hx
        · simp at hx; omega
      cases Hi with
      | nil =>
        have hsw : swap (X ++ Lo ++ [] ++ a :: Rest ++ pivot :: Y) (i + 1) j
            = some (X ++ (Lo ++ [a]) ++ [] ++ Rest ++ pivot :: Y) := by
          have e : X ++ Lo ++ [] ++ a :: Rest ++ pivot :: Y
              = (X ++ Lo) ++ a :: (Rest ++ pivot :: Y) := by simp
          have hij : j = i + 1 := by simp at hj; omega
          rw [e, hij, swap_self _ _ a (i + 1) (by simp; omega)]
          simp
        obtain ⟨Lo', Hi', hrun, h1, h2, hperm⟩ := ih (Lo ++ [a]) [] f r (i + 1) (j + 1)
          (by simp at hf; omega) (by simp; omega) (by simp at hj ⊢; omega)
          (by simp at hr; omega) hLo' (by simp)
        refine ⟨Lo', Hi', ?_, h1, h2, ?_⟩
        · rw [hsw]; simpa using hrun
        · refine hperm.trans ?_
          simp
      | cons h Hi =>
        have hsw : swap (X ++ Lo ++ h :: Hi ++ a :: Rest ++ pivot :: Y) (i + 1) j
            = some (X ++ (Lo ++ [a]) ++ (Hi ++ [h]) ++ Rest ++ pivot :: Y) := by
          have e : X ++ Lo ++ h :: Hi ++ a :: Rest ++ pivot :: Y
              = (X ++ Lo) ++ h :: Hi ++ a :: (Rest ++ pivot :: Y) := by simp
          rw [e, swap_far (X ++ Lo) Hi _ h a (i + 1) j (by simp; omega)
            (by simp at hj ⊢; omega)]
          simp
        obtain ⟨Lo', Hi', hrun, h1, h2, hperm⟩ := ih (Lo ++ [a]) (Hi ++ [h]) f r (i + 1)
          (j + 1) (by simp at hf; omega) (by simp; omega) (by simp at hj ⊢; omega)
          (by simp at hr; omega) hLo' (by
            intro x hx
            rcases List.mem_append.1 hx with hx | hx
            · exact hHi x (List.mem_cons_of_mem _ hx)
            · simp at hx; subst hx; exact hHi _ (List.mem_cons_self _ _))
        refine ⟨Lo', Hi', ?_, h1, h2, ?_⟩
        · rw [hsw]; simpa using hrun
        · refine hperm.trans ?_
          rw [List.perm_iff_count]
          intro x
          simp only [List.count_append, List.count_cons, List.count_nil]
          omega
    · simp only [ha, if_false]
      obtain ⟨Lo', Hi', hrun, h1, h2, hperm⟩ := ih Lo (Hi ++ [a]) f r i (j + 1)
        (by simp at hf; omega) hi (by simp; omega) (by simp at hr; omega) hLo (by
          intro x hx
          rcases List.mem_append.1 hx with hx | hx
          · exact hHi x hx
          · simp at hx; omega)
      refine ⟨Lo', Hi', ?_, h1, h2, ?_⟩
      · have e : X ++ Lo ++ Hi ++ a :: Rest ++ pivot :: Y
            = X ++ Lo ++ (Hi ++ [a]) ++ Rest ++ pivot :: Y := by simp
        rw [e]; exact hrun
      · refine hperm.trans ?_
        simp

theorem partition_spec (X M0 Y : List Int) (pivot p r : Int) (hp : p = X.length)
    (hr : r = p + M0.length) :
    ∃ Lo Hi, partition (X ++ M0 ++ pivot :: Y) p r
        = some (X ++ Lo ++ pivot :: Hi ++ Y, (X.length : Int) + Lo.length) ∧
      (∀ x ∈ Lo, x ≤ pivot) ∧ (∀ x ∈ Hi, pivot < x) ∧ (Lo ++ Hi).Perm M0 := by
  have hrd : rd (X ++ M0 ++ pivot :: Y) r = some pivot :=
    rd_append_cons (X ++ M0) Y pivot r (by simp; omega)
  obtain ⟨Lo, Hi, hrun, h1, h2, hperm⟩ := partitionLoop_spec pivot X Y M0 [] []
    (M0.length + 1) r (p - 1) p (le_refl _) (by simp; omega) (by simp; omega) hr
    (by simp) (by simp)
  have hlen : Lo.length + Hi.length = M0.length := by
    have := hperm.length_eq
    simpa using this
  have hfuel : (r - p).toNat + 1 = M0.length + 1 := by omega
  simp only [List.append_nil, List.nil_append] at hrun hperm
  unfold partition
  rw [hrd, Option.some_bind, hfuel, hrun, Option.some_bind]
  cases Hi with
  | nil =>
    refine ⟨Lo, [], ?_, h1, by simp, by simpa using hperm⟩
    have e : X ++ Lo ++ [] ++ pivot :: Y = (X ++ Lo) ++ pivot :: Y := by simp
    have hr' : r = (X.length : Int) + Lo.length - 1 + 1 := by simp at hlen; omega
    simp only []
    rw [e, ← hr', swap_self (X ++ Lo) Y pivot r (by simp; omega)]
    simp; omega
  | cons h H =>
    refine ⟨Lo, H ++ [h], ?_, h1, ?_, ?_⟩
    · have e : X ++ Lo ++ h :: H ++ pivot :: Y = (X ++ Lo) ++ h :: H ++ pivot :: Y := by
        simp
      simp only []
      rw [e, swap_far (X ++ Lo) H Y h pivot _ r (by simp) (by simp at hlen ⊢; omega)]
      simp
    · intro x hx
      rcases List.mem_append.1 hx with hx | hx
      · exact h2 x (List.mem_cons_of_mem _ hx)
      · simp at hx; subst hx; exact h2 _ (List.mem_cons_self _ _)
    · refine List.Perm.trans ?_ hperm
      rw [List.perm_iff_count]
      intro x
      simp only [List.count_append, List.count_cons, List.count_nil]
      omega

theorem QuickSortAux_spec :
    ∀ (fuel : Nat) (M X Y : List Int) (p r : Int), M.length + 1 ≤ fuel →
      p = X.length → r = p + M.length - 1 →
      ∃ M', QuickSortAux fuel (X ++ M ++ Y) p r = some (X ++ M' ++ Y) ∧
        List.Sorted (· ≤ ·) M' ∧ M'.Perm M := by
  intro fuel
  induction fuel with
  | zero => intro M X Y p r hf; omega
  | succ f ih =>
    intro M X Y p r hf hp hr
    rw [QuickSortAux]
    by_cases hlt : p < r
    · simp only [hlt, if_true]
      have hne : M ≠ [] := by
        intro h; subst h; simp at hr; omega
      obtain ⟨M0, pivot, hM⟩ : ∃ M0 pivot, M = M0 ++ [pivot] :=
        ⟨M.dropLast, M.getLast hne, (List.dropLast_append_getLast hne).symm⟩
      subst hM
      obtain ⟨Lo, Hi, hpart, h1, h2, hperm⟩ := partition_spec X M0 Y pivot p r hp
        (by simp at hr; omega)
      have hlen : Lo.length + Hi.length = M0.length := by
        have := hperm.length_eq
        simpa using this
      obtain ⟨Lo', hq1, hs1, hp1⟩ := ih Lo X (pivot :: Hi ++ Y) p
        ((X.length : Int) + Lo.length - 1) (by simp at hf; omega) hp (by omega)
      obtain ⟨Hi', hq2, hs2, hp2⟩ := ih Hi (X ++ Lo' ++ [pivot]) Y
        ((X.length : Int) + Lo.length + 1) r (by simp at hf; omega)
        (by simp [hp1.length_eq]; omega) (by simp at hr; omega)
      refine ⟨Lo' ++ pivot :: Hi', ?_, ?_, ?_⟩
      · have eA : X ++ (M0 ++ [pivot]) ++ Y = X ++ M0 ++ pivot :: Y := by simp
        have eB : X ++ Lo ++ pivot :: Hi ++ Y = X ++ Lo ++ (pivot :: Hi ++ Y) := by simp
        have eC : X ++ Lo' ++ (pivot :: Hi ++ Y) = X ++ Lo' ++ [pivot] ++ Hi ++ Y := by simp
        rw [eA, hpart, Option.some_bind]
        simp only []
        rw [eB, hq1, Option.some_bind, eC, hq2]
        simp
      · refine List.pairwise_append.2 ⟨hs1, ?_, ?_⟩
        · exact List.pairwise_cons.2
            ⟨fun y hy => le_of_lt (h2 y (hp2.subset hy)), hs2⟩
        · intro a ha b hb
          have ha' := h1 a (hp1.subset ha)
          rcases List.mem_cons.1 hb with hb | hb
          · subst hb; exact ha'
          · have := h2 b (hp2.subset hb); omega
      · have e : (Lo' ++ pivot :: Hi').Perm (Lo ++ pivot :: Hi) :=
          List.Perm.append hp1 (List.Perm.cons pivot hp2)
        refine e.trans ?_
        refine List.Perm.trans ?_ (List.Perm.append_right [pivot] hperm)
        rw [List.perm_iff_count]
        intro x
        simp only [List.count_append, List.count_cons, List.count_nil]
        omega
    · simp only [hlt, if_false]
      refine ⟨M, rfl, ?_, List.Perm.refl _⟩
      have : M.length ≤ 1 := by omega
      match M, this with
      | [], _ => simp
      | [a], _ => simp

theorem QuickSort_spec (A : List Int) :
    ∃ B, QuickSort A 0 ((A.length : Int) - 1) = some B ∧
      List.Sorted (· ≤ ·) B ∧ B.Perm A := by
  obtain ⟨M', h, hs, hp⟩ := QuickSortAux_spec (A.length + 1) A [] [] 0
    ((A.length : Int) - 1) (le_refl _) (by simp) (by simp)
  refine ⟨M', ?_, hs, hp⟩
  unfold QuickSort
  have e : ((A.length : Int) - 1 - 0 + 1).toNat + 1 = A.length + 1 := by omega
  rw [e]
  simpa using h

/-! ## Counting sort: the count array -/

theorem Holds.rd_eq {count : List Int} {f : Nat → Int} (h : Holds count f) (d : Int)
    (h0 : 0 ≤ d) (h1 : d < 10) : rd count d = some (f d.toNat) := by
  have := h.2 d.toNat (by omega)
  simp [rd, h0, this]

theorem Holds.wr_eq {count : List Int} {f g : Nat → Int} (h : Holds count f) (d v : Int)
    (h0 : 0 ≤ d) (h1 : d < 10)
    (hg : ∀ e : Nat, e < 10 → g e = if e = d.toNat then v else f e) :
    ∃ count', wr count d v = some count' ∧ Holds count' g := by
  refine ⟨count.set d.toNat v, ?_, ?_, ?_⟩
  · have : d < (count.length : Int) := by rw [h.1]; exact h1
    simp [wr, h0, this]
  · simp [h.1]
  · intro e he
    rw [List.getElem?_set, hg e he]
    by_cases hed : e = d.toNat
    · subst hed
      have : d.toNat < count.length := by rw [h.1]; omega
      simp [this]
    · have : ¬ d.toNat = e := fun h => hed h.symm
      simp [this, hed, h.2 e he]

theorem Holds.congr {count : List Int} {f g : Nat → Int} (h : Holds count f)
    (hg : ∀ e : Nat, e < 10 → g e = f e) : Holds count g :=
  ⟨h.1, fun e he => by rw [hg e he]; exact h.2 e he⟩

theorem holds_replicate : Holds (List.replicate 10 0) (fun _ => 0) := by
  refine ⟨by simp, ?_⟩
  intro d hd
  rw [List.getElem?_replicate]
  simp [hd]

theorem dig_range (exp a : Int) (ha : 0 ≤ a) (he : 0 < exp) :
    0 ≤ dig exp a ∧ dig exp a < 10 := by
  unfold dig
  have h1 : Int.tdiv a exp = a / exp := Int.tdiv_eq_ediv ha (le_of_lt he)
  have h2 : 0 ≤ a / exp := Int.ediv_nonneg ha (le_of_lt he)
  rw [h1, Int.tmod_eq_emod h2 (by norm_num)]
  omega

theorem dig_eq_ediv (exp a : Int) (ha : 0 ≤ a) (he : 0 < exp) :
    dig exp a = a / exp % 10 := by
  unfold dig
  have h1 : Int.tdiv a exp = a / exp := Int.tdiv_eq_ediv ha (le_of_lt he)
  have h2 : 0 ≤ a / exp := Int.ediv_nonneg ha (le_of_lt he)
  rw [h1, Int.tmod_eq_emod h2 (by norm_num)]

theorem cdiv_pos (a exp : Int) (he : 0 < exp) : cdiv a exp = some (Int.tdiv a exp) := by
  have h1 : ¬ exp = 0 := by omega
  have h2 : ¬ exp = -1 := by omega
  simp [cdiv, h1, h2]

theorem digit_pos (a exp : Int) (he : 0 < exp) : digit a exp = some (dig exp a) := by
  simp [digit, cdiv_pos a exp he, dig]

theorem cntLt_succ (exp : Int) (l : List Int) (d : Nat) :
    cntLt exp l (d + 1) = cntLt exp l d + cntEq exp l d := by
  unfold cntLt cntEq
  induction l with
  | nil => simp
  | cons a l ih =>
    simp only [List.countP_cons, ih, decide_eq_true_eq]
    split_ifs <;> omega

theorem cntLt_zero (exp : Int) (l : List Int) (he : 0 < exp) (hl : ∀ a ∈ l, 0 ≤ a) :
    cntLt exp l 0 = 0 := by
  unfold cntLt
  rw [List.countP_eq_zero]
  intro a ha
  have := (dig_range exp a (hl a ha) he).1
  simp; omega

theorem cntLt_ten (exp : Int) (l : List Int) (he : 0 < exp) (hl : ∀ a ∈ l, 0 ≤ a) :
    cntLt exp l 10 = l.length := by
  unfold cntLt
  rw [List.countP_eq_length]
  intro a ha
  have := (dig_range exp a (hl a ha) he).2
  simpa using this

theorem cntLt_mono (exp : Int) (l : List Int) {d e : Nat} (h : d ≤ e) :
    cntLt exp l d ≤ cntLt exp l e := by
  unfold cntLt
  apply List.countP_mono_left
  intro a _ ha
  simp only [decide_eq_true_eq] at ha ⊢
  omega

theorem cntEq_append (exp : Int) (l1 l2 : List Int) (d : Nat) :
    cntEq exp (l1 ++ l2) d = cntEq exp l1 d + cntEq exp l2 d := by
  simp [cntEq]

theorem cntLt_append (exp : Int) (l1 l2 : List Int) (d : Nat) :
    cntLt exp (l1 ++ l2) d = cntLt exp l1 d + cntLt exp l2 d := by
  simp [cntLt]

theorem cntEq_cons (exp : Int) (a : Int) (l : List Int) (d : Nat) :
    cntEq exp (a :: l) d = cntEq exp l d + if dig exp a = (d : Int) then 1 else 0 := by
  simp [cntEq, List.countP_cons]

theorem countLoop_spec (exp : Int) (he : 0 < exp) :
    ∀ (T P count : List Int) (fuel : Nat), T.length + 1 ≤ fuel → (∀ a ∈ T, 0 ≤ a) →
      Holds count (fun d => (cntEq exp P d : Int)) →
      ∃ count', countLoop fuel (P ++ T) count ((P.length : Int) + T.length) exp P.length
          = some count' ∧ Holds count' (fun d => (cntEq exp (P ++ T) d : Int)) := by
  intro T
  induction T with
  | nil =>
    intro P count fuel hf _ hc
    obtain ⟨f, rfl⟩ : ∃ f, fuel = f + 1 := ⟨fuel - 1, by omega⟩
    exact ⟨count, by simp [countLoop], by simpa using hc⟩
  | cons x T ih =>
    intro P count fuel hf hT hc
    obtain ⟨f, rfl⟩ : ∃ f, fuel = f + 1 := ⟨fuel - 1, by omega⟩
    have hx : 0 ≤ x := hT x (List.mem_cons_self _ _)
    obtain ⟨hd0, hd1⟩ := dig_range exp x hx he
    have hlt : (P.length : Int) < (P.length : Int) + ((x :: T).length : Int) := by simp
    obtain ⟨count1, hw, hc1⟩ := hc.wr_eq (g := fun d => (cntEq exp (P ++ [x]) d : Int))
      (dig exp x) ((cntEq exp P (dig exp x).toNat : Int) + 1) hd0 hd1 (by
        intro e _
        have hsplit : cntEq exp (P ++ [x]) e
            = cntEq exp P e + if dig exp x = (e : Int) then 1 else 0 := by
          rw [cntEq_append, cntEq_cons]; simp [cntEq]
        dsimp only
        rw [hsplit]
        by_cases hed : e = (dig exp x).toNat
        · have h' : dig exp x = (e : Int) := by omega
          rw [if_pos hed, if_pos h', ← hed]
          push_cast; rfl
        · have h' : ¬ dig exp x = (e : Int) := by omega
          rw [if_neg hed, if_neg h']
          simp)
    obtain ⟨count', hrun, hc'⟩ := ih (P ++ [x]) count1 f (by simp at hf; omega)
      (fun a ha => hT a (List.mem_cons_of_mem _ ha)) hc1
    refine ⟨count', ?_, by simpa using hc'⟩
    rw [countLoop]
    simp only [hlt, if_true, rd_append_cons P T x _ rfl, Option.some_bind,
      digit_pos x exp he, hc.rd_eq _ hd0 hd1, hw]
    have e1 : P ++ x :: T = (P ++ [x]) ++ T := by simp
    have e2 : (P.length : Int) + ((x :: T).length : Int)
        = ((P ++ [x]).length : Int) + (T.length : Int) := by simp; omega
    have e3 : (P.length : Int) + 1 = ((P ++ [x]).length : Int) := by simp
    rw [e1, e2, e3]
    exact hrun

theorem prefixLoop_spec (exp : Int) (A : List Int) :
    ∀ (j : Nat) (i : Nat) (count : List Int) (fuel : Nat), i + j = 10 → 1 ≤ i →
      j + 1 ≤ fuel →
      Holds count (fun d => if d < i then (cntLt exp A (d + 1) : Int) else cntEq exp A d) →
      ∃ count', prefixLoop fuel count i = some count' ∧
        Holds count' (fun d => (cntLt exp A (d + 1) : Int)) := by
  intro j
  induction j with
  | zero =>
    intro i count fuel hij _ hf hc
    obtain ⟨f, rfl⟩ : ∃ f, fuel = f + 1 := ⟨fuel - 1, by omega⟩
    have hi : i = 10 := by omega
    subst hi
    refine ⟨count, by simp [prefixLoop], hc.congr ?_⟩
    intro e he
    simp [he]
  | succ j ih =>
    intro i count fuel hij hi1 hf hc
    obtain ⟨f, rfl⟩ : ∃ f, fuel = f + 1 := ⟨fuel - 1, by omega⟩
    have hlt : (i : Int) < 10 := by omega
    have hr1 := hc.rd_eq (i : Int) (by omega) hlt
    have hr2 := hc.rd_eq ((i : Int) - 1) (by omega) (by omega)
    have ht1 : ((i : Int)).toNat = i := by simp
    have ht2 : ((i : Int) - 1).toNat = i - 1 := by omega
    rw [ht1] at hr1
    rw [ht2] at hr2
    have hi' : i - 1 < i := by omega
    have hi'' : i - 1 + 1 = i := by omega
    simp only [lt_irrefl, if_false, hi', if_true, hi''] at hr1 hr2
    obtain ⟨count1, hw, hc1⟩ := hc.wr_eq
      (g := fun d => if d < i + 1 then (cntLt exp A (d + 1) : Int) else cntEq exp A d)
      (i : Int) ((cntEq exp A i : Int) + cntLt exp A i) (by omega) hlt (by
        intro e _
        rw [ht1]
        by_cases hei : e = i
        · subst hei
          simp [cntLt_succ]; omega
        · by_cases h2 : e < i
          · have : e < i + 1 := by omega
            simp [hei, h2, this]
          · have : ¬ e < i + 1 := by omega
            simp [hei, h2, this])
    obtain ⟨count', hrun, hc'⟩ := ih (i + 1) count1 f (by omega) (by omega) (by omega) hc1
    refine ⟨count', ?_, hc'⟩
    rw [prefixLoop]
    simp only [hlt, if_true, hr1, hr2, Option.some_bind, hw]
    exact_mod_cast hrun

/-! ## Counting sort: placing the elements -/

theorem prefix_drop_set {L l : List Int} {k idx : Nat} (v : Int)
    (h : L <+: l.drop k) (hidx : idx < k ∨ k + L.length ≤ idx) :
    L <+: (l.set idx v).drop k := by
  rcases hidx with hlt | hge
  · rw [List.drop_set_of_lt v l hlt]; exact h
  · obtain ⟨t, ht⟩ := h
    have h1 : ¬ idx < k := by omega
    have h2 : ¬ idx - k < L.length := by omega
    rw [List.drop_set, if_neg h1, ← ht, List.set_append, if_neg h2]
    exact List.prefix_append _ _

theorem drop_set_self (l : List Int) (j : Nat) (v : Int) (hj : j < l.length) :
    (l.set j v).drop j = v :: l.drop (j + 1) := by
  have hj' : j < (l.set j v).length := by simpa using hj
  rw [List.drop_eq_getElem_cons hj', List.getElem_set_self,
    List.drop_set_of_lt v l (Nat.lt_succ_self j)]

theorem length_filter_dig (exp : Int) (l : List Int) (d : Nat) :
    (l.filter (fun a => decide (dig exp a = (d : Int)))).length = cntEq exp l d := by
  rw [cntEq, List.countP_eq_length_filter]

theorem placeLoop_spec (exp : Int) (he : 0 < exp) :
    ∀ (P S output count : List Int) (fuel : Nat), P.length + 1 ≤ fuel →
      (∀ a ∈ P ++ S, 0 ≤ a) → output.length = (P ++ S).length →
      Holds count (fun d => (cntLt exp (P ++ S) (d + 1) : Int) - cntEq exp S d) →
      (∀ d : Nat, d < 10 → S.filter (fun a => decide (dig exp a = (d : Int)))
          <+: output.drop (cntLt exp (P ++ S) (d + 1) - cntEq exp S d)) →
      ∃ output' count', placeLoop fuel (P ++ S) output count exp ((P.length : Int) - 1)
          = some (output', count') ∧ output'.length = (P ++ S).length ∧
        ∀ d : Nat, d < 10 → (P ++ S).filter (fun a => decide (dig exp a = (d : Int)))
          <+: output'.drop (cntLt exp (P ++ S) d) := by
  intro P
  induction P using List.reverseRecOn with
  | nil =>
    intro S output count fuel hf _ hlen _ hpre
    obtain ⟨f, rfl⟩ : ∃ f, fuel = f + 1 := ⟨fuel - 1, by omega⟩
    refine ⟨output, count, by simp [placeLoop], hlen, ?_⟩
    intro d hd
    have := hpre d hd
    simp only [List.nil_append] at this ⊢
    rw [cntLt_succ, Nat.add_sub_cancel] at this
    exact this
  | append_singleton P x ih =>
    intro S output count fuel hf hnn hlen hc hpre
    obtain ⟨f, rfl⟩ : ∃ f, fuel = f + 1 := ⟨fuel - 1, by omega⟩
    have eA : P ++ [x] ++ S = P ++ x :: S := by simp
    rw [eA] at hnn hlen hc hpre ⊢
    have hx : 0 ≤ x := hnn x (by simp)
    obtain ⟨hd0, hd1⟩ := dig_range exp x hx he
    obtain ⟨dn, hdn⟩ : ∃ dn : Nat, dig exp x = (dn : Int) := ⟨(dig exp x).toNat, by omega⟩
    have hdn10 : dn < 10 := by omega
    have hdnt : (dig exp x).toNat = dn := by omega
    have F1 : cntLt exp (P ++ x :: S) (dn + 1)
        = cntLt exp (P ++ x :: S) dn + cntEq exp (P ++ x :: S) dn := cntLt_succ _ _ _
    have F3 : cntEq exp (P ++ x :: S) dn = cntEq exp P dn + (cntEq exp S dn + 1) := by
      rw [cntEq_append, cntEq_cons, if_pos hdn]
    have F6 : cntLt exp (P ++ x :: S) (dn + 1) ≤ (P ++ x :: S).length := by
      rw [← cntLt_ten exp (P ++ x :: S) he hnn]
      exact cntLt_mono exp _ (by omega)
    have hi0 : ((P ++ [x]).length : Int) - 1 ≥ 0 := by simp
    have hrdA : rd (P ++ x :: S) (((P ++ [x]).length : Int) - 1) = some x :=
      rd_append_cons P S x _ (by simp)
    have hrc := hc.rd_eq (dig exp x) hd0 hd1
    rw [hdnt] at hrc
    -- the write into `output`
    obtain ⟨j, hj⟩ : ∃ j : Nat, (j : Int)
        = (cntLt exp (P ++ x :: S) (dn + 1) : Int) - cntEq exp S dn - 1 :=
      ⟨cntLt exp (P ++ x :: S) (dn + 1) - cntEq exp S dn - 1, by omega⟩
    have hjlt : j < output.length := by omega
    have hwo : wr output ((cntLt exp (P ++ x :: S) (dn + 1) : Int) - cntEq exp S dn - 1) x
        = some (output.set j x) := by
      rw [← hj]
      have : ((j : Nat) : Int) < (output.length : Int) := by omega
      simp [wr, this]
    -- the write into `count`
    obtain ⟨count1, hwc, hc1⟩ := hc.wr_eq
      (g := fun d => (cntLt exp (P ++ x :: S) (d + 1) : Int) - cntEq exp (x :: S) d)
      (dig exp x) ((cntLt exp (P ++ x :: S) (dn + 1) : Int) - cntEq exp S dn - 1) hd0 hd1 (by
        intro e _
        dsimp only
        rw [hdnt, cntEq_cons]
        by_cases hed : e = dn
        · subst hed
          rw [if_pos rfl, if_pos hdn]; push_cast; ring
        · have h' : ¬ dig exp x = (e : Int) := by omega
          rw [if_neg hed, if_neg h']; simp)
    -- the invariant for the next iteration
    have hpre1 : ∀ d : Nat, d < 10 →
        (x :: S).filter (fun a => decide (dig exp a = (d : Int)))
          <+: (output.set j x).drop
            (cntLt exp (P ++ x :: S) (d + 1) - cntEq exp (x :: S) d) := by
      intro d hd
      have hS := hpre d hd
      have F2 : cntLt exp (P ++ x :: S) (d + 1)
          = cntLt exp (P ++ x :: S) d + cntEq exp (P ++ x :: S) d := cntLt_succ _ _ _
      have F4 : cntEq exp (P ++ x :: S) d
          = cntEq exp P d + (cntEq exp S d + if dig exp x = (d : Int) then 1 else 0) := by
        rw [cntEq_append, cntEq_cons]
      by_cases hdd : d = dn
      · subst hdd
        have hk : cntLt exp (P ++ x :: S) (d + 1) - cntEq exp (x :: S) d = j := by
          rw [cntEq_cons, if_pos hdn]; omega
        have hk' : cntLt exp (P ++ x :: S) (d + 1) - cntEq exp S d = j + 1 := by omega
        rw [hk, drop_set_self output j x hjlt, List.filter_cons_of_pos (by simpa using hdn)]
        rw [hk'] at hS
        exact (List.prefix_cons_inj x).2 hS
      · have hne : ¬ dig exp x = (d : Int) := by omega
        rw [List.filter_cons_of_neg (by simpa using hne), cntEq_cons, if_neg hne,
          Nat.add_zero]
        apply prefix_drop_set x hS
        rw [length_filter_dig]
        rw [if_neg hne] at F4
        rcases Nat.lt_or_gt_of_ne hdd with hlt | hgt
        · have F5 : cntLt exp (P ++ x :: S) (d + 1) ≤ cntLt exp (P ++ x :: S) dn :=
            cntLt_mono exp _ (by omega)
          right; omega
        · have F5 : cntLt exp (P ++ x :: S) (dn + 1) ≤ cntLt exp (P ++ x :: S) d :=
            cntLt_mono exp _ (by omega)
          left; omega
    obtain ⟨output', count', hrun, hlen', hpost⟩ := ih (x :: S) (output.set j x) count1 f
      (by simp at hf; omega) hnn (by simpa using hlen) hc1 hpre1
    refine ⟨output', count', ?_, hlen', hpost⟩
    rw [placeLoop]
    simp only [hi0, if_true, hrdA, Option.some_bind, digit_pos x exp he, hrc, hwo, hwc]
    have e3 : ((P ++ [x]).length : Int) - 1 - 1 = (P.length : Int) - 1 := by simp
    rw [e3]
    exact hrun

theorem take_buckets (exp : Int) (he : 0 < exp) (A output : List Int)
    (hnn : ∀ a ∈ A, 0 ≤ a)
    (hpre : ∀ d : Nat, d < 10 → A.filter (fun a => decide (dig exp a = (d : Int)))
      <+: output.drop (cntLt exp A d)) :
    ∀ d : Nat, d ≤ 10 → output.take (cntLt exp A d) = buckets exp A d := by
  intro d
  induction d with
  | zero =>
    intro _
    rw [cntLt_zero exp A he hnn]
    simp [buckets]
  | succ d ih =>
    intro hd
    have h1 := List.prefix_iff_eq_take.1 (hpre d (by omega))
    rw [length_filter_dig] at h1
    rw [cntLt_succ, List.take_add, ih (by omega), ← h1]
    rfl

theorem countingSort_spec (exp : Int) (he : 0 < exp) (A : List Int)
    (hnn : ∀ a ∈ A, 0 ≤ a) :
    countingSort A A.length exp = some (buckets exp A 10) := by
  obtain ⟨count1, hrun1, hc1⟩ := countLoop_spec exp he A [] (List.replicate 10 0)
    (A.length + 1) (le_refl _) hnn (holds_replicate.congr (by intro e _; simp [cntEq]))
  simp only [List.nil_append, List.length_nil, Nat.cast_zero, zero_add] at hrun1 hc1
  obtain ⟨count2, hrun2, hc2⟩ := prefixLoop_spec exp A 9 1 count1 10 (by norm_num)
    (le_refl _) (by norm_num) (hc1.congr (by
      intro e _
      by_cases h0 : e < 1
      · have : e = 0 := by omega
        subst this
        simp [cntLt_succ, cntLt_zero exp A he hnn]
      · simp [h0]))
  obtain ⟨output, count3, hrun3, hlen3, hpre3⟩ := placeLoop_spec exp he A []
    (List.replicate A.length 0) count2 (A.length + 1) (le_refl _)
    (by simpa using hnn) (by simp) (hc2.congr (by intro e _; simp [cntEq]))
    (by intro d _; simp)
  simp only [List.append_nil] at hrun3 hlen3 hpre3
  have hout : output = buckets exp A 10 := by
    have h := take_buckets exp he A output hnn hpre3 10 (le_refl _)
    rw [cntLt_ten exp A he hnn, ← hlen3, List.take_length] at h
    exact h
  have hcopy := copyLoop_spec output (fun i => i) A output [] (A.length + 1) hlen3.symm
    (le_refl _) (by
      intro t _
      simp [rd_natCast])
  simp only [List.nil_append, List.length_nil, Nat.cast_zero, zero_add] at hcopy
  unfold countingSort
  simp only [newArr_natCast, Option.some_bind, Int.toNat_ofNat, hrun1]
  rw [Nat.cast_one] at hrun2
  rw [hrun2]
  simp only [Option.some_bind, hrun3, hcopy]
  rw [hout]

/-! ## Counting sort: the result is a stable sort by the bucket index -/

theorem count_buckets (exp : Int) (A : List Int) (x : Int) :
    ∀ d : Nat, List.count x (buckets exp A d)
      = if 0 ≤ dig exp x ∧ dig exp x < (d : Int) then List.count x A else 0 := by
  intro d
  induction d with
  | zero =>
    have : ¬ (0 ≤ dig exp x ∧ dig exp x < ((0 : Nat) : Int)) := by
      push_cast; omega
    rw [if_neg this]
    simp [buckets]
  | succ d ih =>
    have hf : List.count x (A.filter (fun a => decide (dig exp a = (d : Int))))
        = if dig exp x = (d : Int) then List.count x A else 0 := by
      by_cases h : dig exp x = (d : Int)
      · rw [if_pos h, List.count_filter (by simpa using h)]
      · rw [if_neg h, List.count_eq_zero]
        intro hmem
        have := (List.mem_filter.1 hmem).2
        simp at this
        exact h this
    rw [buckets, List.count_append, ih, hf]
    push_cast
    split_ifs <;> omega

theorem buckets_perm (exp : Int) (he : 0 < exp) (A : List Int) (hnn : ∀ a ∈ A, 0 ≤ a) :
    (buckets exp A 10).Perm A := by
  rw [List.perm_iff_count]
  intro x
  rw [count_buckets]
  by_cases hx : x ∈ A
  · have := dig_range exp x (hnn x hx) he
    rw [if_pos ⟨this.1, by simpa using this.2⟩]
  · rw [List.count_eq_zero.2 hx]
    split_ifs <;> rfl

theorem mem_buckets (exp : Int) (A : List Int) (a : Int) :
    ∀ d : Nat, a ∈ buckets exp A d → a ∈ A ∧ dig exp a < (d : Int) := by
  intro d
  induction d with
  | zero => intro h; simp [buckets] at h
  | succ d ih =>
    intro h
    rw [buckets, List.mem_append] at h
    rcases h with h | h
    · have := ih h
      exact ⟨this.1, by push_cast; omega⟩
    · have := List.mem_filter.1 h
      have h2 : dig exp a = (d : Int) := by simpa using this.2
      exact ⟨this.1, by push_cast; omega⟩

theorem buckets_pairwise (exp : Int) (A : List Int) (f g : Int → Int)
    (hA : A.Pairwise (fun a b => f a ≤ f b))
    (h1 : ∀ a ∈ A, ∀ b ∈ A, dig exp a < dig exp b → g a ≤ g b)
    (h2 : ∀ a ∈ A, ∀ b ∈ A, dig exp a = dig exp b → f a ≤ f b → g a ≤ g b) :
    ∀ d : Nat, (buckets exp A d).Pairwise (fun a b => g a ≤ g b) := by
  intro d
  induction d with
  | zero => simp [buckets]
  | succ d ih =>
    rw [buckets]
    refine List.pairwise_append.2 ⟨ih, ?_, ?_⟩
    · have hfil : (A.filter (fun a => decide (dig exp a = (d : Int)))).Pairwise
          (fun a b => f a ≤ f b) := hA.filter _
      refine hfil.imp_of_mem ?_
      intro a b ha hb hab
      have ha' := List.mem_filter.1 ha
      have hb' := List.mem_filter.1 hb
      have e1 : dig exp a = (d : Int) := by simpa using ha'.2
      have e2 : dig exp b = (d : Int) := by simpa using hb'.2
      exact h2 a ha'.1 b hb'.1 (by rw [e1, e2]) hab
    · intro a ha b hb
      have ha' := mem_buckets exp A a d ha
      have hb' := List.mem_filter.1 hb
      have e2 : dig exp b = (d : Int) := by simpa using hb'.2
      exact h1 a ha'.1 b hb'.1 (by omega)

theorem pass_keeps_sorted (e : Int) (he : 0 < e) (A : List Int)
    (hr : ∀ a ∈ A, 0 ≤ a ∧ a < e * 10) (hA : A.Sorted (· ≤ ·)) :
    (buckets e A 10).Sorted (· ≤ ·) := by
  refine buckets_pairwise e A (fun a => a) (fun a => a) hA ?_ ?_ 10
  · intro a ha b hb hlt
    rw [dig_eq_ediv e a (hr a ha).1 he, dig_eq_ediv e b (hr b hb).1 he] at hlt
    have ha1 : a / e < 10 := Int.ediv_lt_of_lt_mul he (by have := (hr a ha).2; linarith)
    have hb1 : b / e < 10 := Int.ediv_lt_of_lt_mul he (by have := (hr b hb).2; linarith)
    have ha0 : 0 ≤ a / e := Int.ediv_nonneg (hr a ha).1 (le_of_lt he)
    have hb0 : 0 ≤ b / e := Int.ediv_nonneg (hr b hb).1 (le_of_lt he)
    show a ≤ b
    by_contra hcon
    have : b / e ≤ a / e := Int.ediv_le_ediv he (by omega)
    omega
  · intro a _ b _ _ hle
    exact hle

/-! ## Radix sort: correctness -/

theorem wrap32_eq (x : Int) (h0 : -2147483648 ≤ x) (h1 : x ≤ 2147483647) : wrap32 x = x := by
  unfold wrap32
  omega

theorem sorted_perm_unique {A B1 B2 : List Int} (h1 : List.Sorted (· ≤ ·) B1)
    (p1 : B1.Perm A) (h2 : List.Sorted (· ≤ ·) B2) (p2 : B2.Perm A) : B1 = B2 :=
  List.eq_of_perm_of_sorted (p1.trans p2.symm) h1 h2

theorem InsertionSort_sorted (A : List Int) (hs : List.Sorted (· ≤ ·) A) :
    InsertionSort A A.length = some A := by
  obtain ⟨B, hB, hBs, hBp⟩ := InsertionSort_spec A
  rw [hB, sorted_perm_unique hBs hBp hs (List.Perm.refl A)]

theorem mergeSort_sorted (A : List Int) (hs : List.Sorted (· ≤ ·) A) :
    mergeSort A 0 ((A.length : Int) - 1) = some A := by
  obtain ⟨B, hB, hBs, hBp⟩ := mergeSort_spec A
  rw [hB, sorted_perm_unique hBs hBp hs (List.Perm.refl A)]

theorem QuickSort_sorted (A : List Int) (hs : List.Sorted (· ≤ ·) A) :
    QuickSort A 0 ((A.length : Int) - 1) = some A := by
  obtain ⟨B, hB, hBs, hBp⟩ := QuickSort_spec A
  rw [hB, sorted_perm_unique hBs hBp hs (List.Perm.refl A)]

theorem copy_whole (A : List Int) :
    copyLoop (A.length + 1) A (List.replicate A.length 0) (fun i => i) A.length 0
      = some A := by
  have h := copyLoop_spec A (fun i => i) (List.replicate A.length 0) A [] (A.length + 1)
    (by simp) (by simp) (by
      intro t _
      simp [rd_natCast])
  simpa using h

theorem stdCopy_whole (A : List Int) :
    stdCopy { A := A, copy := List.replicate A.length 0 } Ptr.A Ptr.copy A.length
      = some { A := A, copy := A } := by
  unfold stdCopy
  simp only [Mem.get, Int.toNat_ofNat, copy_whole, Option.map_some', Mem.set]

theorem measureTime_eq (sortFunc : List Int → Int → Option (List Int)) (A : List Int)
    (d : Int) :
    measureTime sortFunc A A.length d
      = (sortFunc A A.length).bind fun _ =>
          if d > 300000 then some { caller := A, passed := A, result := "time limit" }
          else some { caller := A, passed := A, result := toString d } := by
  unfold measureTime
  rw [newArr_natCast, Option.some_bind, stdCopy_whole, Option.some_bind]
  unfold callOn
  simp only [Mem.get]
  cases sortFunc A A.length with
  | none => rfl
  | some B => rfl

theorem measureTimeMergeSort_eq (A : List Int) (d : Int) :
    measureTimeMergeSort A A.length d
      = if d > 300000 then some { caller := A, passed := A, result := "time limit" }
        else some { caller := A, passed := A, result := toString d } := by
  obtain ⟨B, hB, _, _⟩ := mergeSort_spec A
  unfold measureTimeMergeSort
  rw [newArr_natCast, Option.some_bind, stdCopy_whole, Option.some_bind]
  unfold callOn
  simp only [Mem.get, hB]
  rfl

theorem measureTimeQuickSort_eq (A : List Int) (d : Int) :
    measureTimeQuickSort A A.length d
      = if d > 300000 then some { caller := A, passed := A, result := "time limit" }
        else some { caller := A, passed := A, result := toString d } := by
  obtain ⟨B, hB, _, _⟩ := QuickSort_spec A
  unfold measureTimeQuickSort
  rw [newArr_natCast, Option.some_bind, stdCopy_whole, Option.some_bind]
  unfold callOn
  simp only [Mem.get, hB]
  rfl

theorem toString_ne_time_limit (d : Int) (h : d ≤ 300000) : toString d ≠ "time limit" := by
  cases d with
  | ofNat m =>
    intro hcon
    have hm : m < 10 ^ 6 := by
      have : (m : Int) ≤ 300000 := h
      omega
    have hlen := Nat.repr_length m 6 (by norm_num) hm
    have heq : (Nat.repr m).length = "time limit".length := congrArg String.length hcon
    have h10 : "time limit".length = 10 := by decide
    omega
  | negSucc m =>
    intro hcon
    have : "-" ++ toString (m.succ) = "time limit" := hcon
    have := congrArg String.data this
    simp at this

/-! ## Parts of an array -/

theorem split3 (A : List Int) (p r : Int) (h0 : 0 ≤ p) (hpr : p ≤ r + 1)
    (hr : r < A.length) :
    A = A.take p.toNat ++ slice A p r ++ A.drop (r + 1).toNat ∧
      (A.take p.toNat).length = p.toNat ∧ (slice A p r).length = (r - p + 1).toNat := by
  have e : (r + 1).toNat = p.toNat + (r - p + 1).toNat := by omega
  refine ⟨?_, ?_, ?_⟩
  · unfold slice
    rw [e, ← List.drop_drop, List.append_assoc, List.take_append_drop,
      List.take_append_drop]
  · rw [List.length_take]; omega
  · unfold slice
    rw [List.length_take, List.length_drop]; omega

theorem slice_mid (X M Y : List Int) (p r : Int) (hp : p = X.length)
    (hr : r = p + M.length - 1) : slice (X ++ M ++ Y) p r = M := by
  have e1 : p.toNat = X.length := by omega
  have e2 : (r - p + 1).toNat = M.length := by omega
  unfold slice
  rw [e1, e2, List.append_assoc, List.drop_left, List.take_left]

theorem rd_isSome_iff (A : List Int) (i : Int) :
    (rd A i).isSome = true ↔ 0 ≤ i ∧ i < A.length := by
  unfold rd
  by_cases h : 0 ≤ i
  · rw [if_pos h]
    constructor
    · intro hs
      obtain ⟨v, hv⟩ := Option.isSome_iff_exists.1 hs
      have := (List.getElem?_eq_some_iff.1 hv).1
      exact ⟨h, by omega⟩
    · intro hi
      have hlt : i.toNat < A.length := by omega
      rw [List.getElem?_eq_getElem hlt]
      rfl
  · rw [if_neg h]
    constructor
    · intro hs; simp at hs
    · intro hi; exact absurd hi.1 h

theorem wr_isSome_iff (A : List Int) (i v : Int) :
    (wr A i v).isSome = true ↔ 0 ≤ i ∧ i < A.length := by
  unfold wr
  by_cases h : 0 ≤ i ∧ i < (A.length : Int)
  · rw [if_pos h]; simp [h]
  · rw [if_neg h]; simp [h]

theorem wr_length {A A1 : List Int} {i v : Int} (h : wr A i v = some A1) :
    A1.length = A.length ∧ 0 ≤ i ∧ i < A.length := by
  unfold wr at h
  by_cases hc : 0 ≤ i ∧ i < (A.length : Int)
  · rw [if_pos hc] at h
    rw [← Option.some.inj h]
    exact ⟨by simp, hc⟩
  · rw [if_neg hc] at h; simp at h

theorem rd_bounds {A : List Int} {i v : Int} (h : rd A i = some v) :
    0 ≤ i ∧ i < A.length :=
  (rd_isSome_iff A i).1 (by rw [h]; rfl)

theorem newArr_isSome_iff (n : Int) : (newArr n).isSome = true ↔ 0 ≤ n := by
  unfold newArr
  by_cases h : 0 ≤ n
  · rw [if_pos h]; simp [h]
  · rw [if_neg h]; simp [h]

theorem rd_outside (X M M1 Y : List Int) (i : Int) (hlen : M1.length = M.length)
    (hi : i < X.length ∨ (X.length : Int) + M.length ≤ i) :
    rd (X ++ M1 ++ Y) i = rd (X ++ M ++ Y) i := by
  unfold rd
  by_cases h0 : 0 ≤ i
  · rw [if_pos h0, if_pos h0]
    rcases hi with hi | hi
    · have hlt : i.toNat < X.length := by omega
      rw [List.append_assoc, List.append_assoc, List.getElem?_append_left hlt,
        List.getElem?_append_left hlt]
    · have h1 : (X ++ M1).length ≤ i.toNat := by rw [List.length_append]; omega
      have h2 : (X ++ M).length ≤ i.toNat := by rw [List.length_append]; omega
      rw [List.getElem?_append_right h1, List.getElem?_append_right h2,
        List.length_append, List.length_append, hlen]
  · rw [if_neg h0, if_neg h0]

/-! ## The recursive sorts on an arbitrary index range -/

theorem mergeSort_range (A : List Int) (p r : Int) (h0 : 0 ≤ p) (hpr : p ≤ r)
    (hr : r < A.length) :
    ∃ B, mergeSort A p r = some B ∧
      ∀ fuel : Nat, (r - p + 1).toNat + 1 ≤ fuel → mergeSortAux fuel A p r = some B := by
  obtain ⟨hA, hX, hM⟩ := split3 A p r h0 (by omega) hr
  have key : ∀ fuel : Nat, (r - p + 1).toNat + 1 ≤ fuel →
      ∃ M', mergeSortAux fuel A p r
          = some (A.take p.toNat ++ M' ++ A.drop (r + 1).toNat) ∧
        List.Sorted (· ≤ ·) M' ∧ M'.Perm (slice A p r) := by
    intro fuel hf
    have := mergeSortAux_spec fuel (slice A p r) (A.take p.toNat) (A.drop (r + 1).toNat)
      p r (by omega) (by omega) (by omega)
    rw [← hA] at this
    exact this
  obtain ⟨M0, h0', hs0, hp0⟩ := key ((r - p + 1).toNat + 1) (le_refl _)
  refine ⟨_, h0', ?_⟩
  intro fuel hf
  obtain ⟨M1, h1', hs1, hp1⟩ := key fuel hf
  rw [h1', sorted_perm_unique hs1 hp1 hs0 hp0]

theorem QuickSort_range (A : List Int) (p r : Int) (h0 : 0 ≤ p) (hpr : p ≤ r)
    (hr : r < A.length) :
    ∃ B, QuickSort A p r = some B ∧
      ∀ fuel : Nat, (r - p + 1).toNat + 1 ≤ fuel → QuickSortAux fuel A p r = some B := by
  obtain ⟨hA, hX, hM⟩ := split3 A p r h0 (by omega) hr
  have key : ∀ fuel : Nat, (r - p + 1).toNat + 1 ≤ fuel →
      ∃ M', QuickSortAux fuel A p r
          = some (A.take p.toNat ++ M' ++ A.drop (r + 1).toNat) ∧
        List.Sorted (· ≤ ·) M' ∧ M'.Perm (slice A p r) := by
    intro fuel hf
    have := QuickSortAux_spec fuel (slice A p r) (A.take p.toNat) (A.drop (r + 1).toNat)
      p r (by omega) (by omega) (by omega)
    rw [← hA] at this
    exact this
  obtain ⟨M0, h0', hs0, hp0⟩ := key ((r - p + 1).toNat + 1) (le_refl _)
  refine ⟨_, h0', ?_⟩
  intro fuel hf
  obtain ⟨M1, h1', hs1, hp1⟩ := key fuel hf
  rw [h1', sorted_perm_unique hs1 hp1 hs0 hp0]

theorem sorts_trivial_range (A : List Int) (p r : Int) (h : r ≤ p) :
    mergeSort A p r = some A ∧ QuickSort A p r = some A := by
  have hlt : ¬ p < r := by omega
  constructor
  · unfold mergeSort
    rw [mergeSortAux, if_neg hlt]
  · unfold QuickSort
    rw [QuickSortAux, if_neg hlt]

theorem split3_exists (A : List Int) (p r : Int) (h0 : 0 ≤ p) (hpr : p ≤ r + 1)
    (hr : r < A.length) :
    ∃ X M Y, A = X ++ M ++ Y ∧ p = X.length ∧ r = p + M.length - 1 := by
  obtain ⟨hA, hX, hM⟩ := split3 A p r h0 hpr hr
  exact ⟨_, _, _, hA, by omega, by omega⟩

theorem partition_range (A : List Int) (p r : Int) (h0 : 0 ≤ p) (hpr : p ≤ r)
    (hr : r < A.length) :
    ∃ A' q pivot, partition A p r = some (A', q) ∧ rd A r = some pivot ∧
      p ≤ q ∧ q ≤ r ∧ A'.length = A.length ∧ rd A' q = some pivot ∧
      (∀ x ∈ slice A' p (q - 1), x ≤ pivot) ∧ (∀ x ∈ slice A' (q + 1) r, pivot < x) ∧
      (slice A' p r).Perm (slice A p r) ∧
      (∀ i : Int, i < p ∨ r < i → rd A' i = rd A i) := by
  obtain ⟨X, M, Y, hA, hp, hrM⟩ := split3_exists A p r h0 (by omega) hr
  subst hA
  have hne : M ≠ [] := by
    intro h; subst h; simp at hrM; omega
  obtain ⟨M0, pivot, hM⟩ : ∃ M0 pivot, M = M0 ++ [pivot] :=
    ⟨M.dropLast, M.getLast hne, (List.dropLast_append_getLast hne).symm⟩
  subst hM
  have hr0 : r = p + M0.length := by simp at hrM; omega
  obtain ⟨Lo, Hi, hpart, h1, h2, hperm⟩ := partition_spec X M0 Y pivot p r hp hr0
  have hlen : Lo.length + Hi.length = M0.length := by
    have := hperm.length_eq
    simpa using this
  have eA : X ++ (M0 ++ [pivot]) ++ Y = X ++ M0 ++ pivot :: Y := by simp
  have eB1 : X ++ Lo ++ pivot :: Hi ++ Y = (X ++ Lo) ++ pivot :: (Hi ++ Y) := by simp
  have eB2 : X ++ Lo ++ pivot :: Hi ++ Y = X ++ Lo ++ (pivot :: Hi ++ Y) := by simp
  have eB3 : X ++ Lo ++ pivot :: Hi ++ Y = (X ++ Lo ++ [pivot]) ++ Hi ++ Y := by simp
  have eB4 : X ++ Lo ++ pivot :: Hi ++ Y = X ++ (Lo ++ pivot :: Hi) ++ Y := by simp
  refine ⟨X ++ Lo ++ pivot :: Hi ++ Y, (X.length : Int) + Lo.length, pivot, ?_, ?_, by omega,
    by omega, ?_, ?_, ?_, ?_, ?_, ?_⟩
  · rw [eA]; exact hpart
  · rw [eA]; exact rd_append_cons (X ++ M0) Y pivot r (by simp; omega)
  · simp; omega
  · rw [eB1]; exact rd_append_cons (X ++ Lo) (Hi ++ Y) pivot _ (by simp)
  · rw [eB2, slice_mid X Lo _ p _ hp (by omega)]; exact h1
  · have hl3 : (X ++ Lo ++ [pivot]).length = X.length + Lo.length + 1 := by
      simp only [List.length_append, List.length_cons, List.length_nil]
    rw [eB3, slice_mid (X ++ Lo ++ [pivot]) Hi Y _ r (by omega) (by omega)]
    exact h2
  · rw [eB4, slice_mid X (Lo ++ pivot :: Hi) Y p r hp (by simp; omega),
      slice_mid X (M0 ++ [pivot]) Y p r hp hrM]
    refine List.Perm.trans ?_ (List.Perm.append_right [pivot] hperm)
    rw [List.perm_iff_count]
    intro x
    simp only [List.count_append, List.count_cons, List.count_nil]
    omega
  · intro i hi
    rw [eB4]
    have hl1 : (Lo ++ pivot :: Hi).length = (M0 ++ [pivot]).length := by
      simp only [List.length_append, List.length_cons, List.length_nil]; omega
    have hl2 : ((M0 ++ [pivot]).length : Int) = M0.length + 1 := by simp
    exact rd_outside X (M0 ++ [pivot]) (Lo ++ pivot :: Hi) Y i hl1 (by omega)

theorem merge_range (A : List Int) (p q r : Int) (h0 : 0 ≤ p) (hpq : p ≤ q) (hqr : q < r)
    (hr : r < A.length) :
    ∃ A', merge A p q r = some A' ∧ A'.length = A.length ∧
      slice A' p r = List.merge (slice A p q) (slice A (q + 1) r) leB ∧
      slice A p r = slice A p q ++ slice A (q + 1) r ∧
      (∀ i : Int, i < p ∨ r < i → rd A' i = rd A i) := by
  obtain ⟨X, M, Y, hA, hp, hrM⟩ := split3_exists A p r h0 (by omega) hr
  subst hA
  obtain ⟨k, hk⟩ : ∃ k : Nat, (k : Int) = q - p + 1 := ⟨(q - p + 1).toNat, by omega⟩
  have hkM : k ≤ M.length := by omega
  have hM : M = M.take k ++ M.drop k := (List.take_append_drop k M).symm
  have hlt : (M.take k).length = k := by rw [List.length_take]; omega
  have hld : (M.drop k).length = M.length - k := List.length_drop k M
  have hq : q = p + (M.take k).length - 1 := by omega
  have hr' : r = q + (M.drop k).length := by omega
  have hm := merge_spec X (M.take k) (M.drop k) Y p q r hp hq hr'
  have eA : X ++ M ++ Y = X ++ M.take k ++ M.drop k ++ Y := by
    rw [List.append_assoc X (M.take k), List.take_append_drop]
  have eA2 : X ++ M ++ Y = X ++ M.take k ++ (M.drop k ++ Y) := by
    rw [List.append_assoc, List.append_assoc, ← List.append_assoc (M.take k),
      List.take_append_drop]
  have hs1 : slice (X ++ M ++ Y) p q = M.take k := by
    rw [eA2]; exact slice_mid X _ _ p q hp hq
  have hs2 : slice (X ++ M ++ Y) (q + 1) r = M.drop k := by
    rw [eA]
    exact slice_mid (X ++ M.take k) _ Y (q + 1) r (by rw [List.length_append]; omega)
      (by omega)
  have hlm : (List.merge (M.take k) (M.drop k) leB).length = M.length := by
    rw [(List.perm_merge leB _ _).length_eq, List.take_append_drop]
  refine ⟨X ++ List.merge (M.take k) (M.drop k) leB ++ Y, ?_, ?_, ?_, ?_, ?_⟩
  · rw [eA]; exact hm
  · simp only [List.length_append, hlm]
  · rw [hs1, hs2]
    exact slice_mid X _ Y p r hp (by rw [hlm]; exact hrM)
  · rw [hs1, hs2, List.take_append_drop]
    exact slice_mid X M Y p r hp hrM
  · intro i hi
    exact rd_outside X M _ Y i hlm (by omega)

/-! ## The text written by a measurement, whatever the size argument -/

theorem measureTime_result (sortFunc : List Int → Int → Option (List Int))
    (A : List Int) (n d : Int) (m : Measurement)
    (h : measureTime sortFunc A n d = some m) :
    m.result = if d > 300000 then "time limit" else toString d := by
  unfold measureTime at h
  simp only [Option.bind_eq_some] at h
  obtain ⟨copy0, _, m1, _, m2, _, h⟩ := h
  split_ifs at h with hd <;> (rw [← Option.some.inj h]; simp only [hd, if_true, if_false])

theorem measureTimeMergeSort_result (A : List Int) (n d : Int) (m : Measurement)
    (h : measureTimeMergeSort A n d = some m) :
    m.result = if d > 300000 then "time limit" else toString d := by
  unfold measureTimeMergeSort at h
  simp only [Option.bind_eq_some] at h
  obtain ⟨copy0, _, m1, _, m2, _, h⟩ := h
  split_ifs at h with hd <;> (rw [← Option.some.inj h]; simp only [hd, if_true, if_false])

theorem measureTimeQuickSort_result (A : List Int) (n d : Int) (m : Measurement)
    (h : measureTimeQuickSort A n d = some m) :
    m.result = if d > 300000 then "time limit" else toString d := by
  unfold measureTimeQuickSort at h
  simp only [Option.bind_eq_some] at h
  obtain ⟨copy0, _, m1, _, m2, _, h⟩ := h
  split_ifs at h with hd <;> (rw [← Option.some.inj h]; simp only [hd, if_true, if_false])

theorem toString_length_le (d : Int) (h0 : 0 ≤ d) (e : Nat) (he : 0 < e)
    (hd : d < 10 ^ e) : (toString d).length ≤ e := by
  cases d with
  | ofNat k =>
    have hk : k < 10 ^ e := by
      have : ((k : Nat) : Int) < ((10 ^ e : Nat) : Int) := by push_cast; exact hd
      exact_mod_cast this
    exact Nat.repr_length k e he hk
  | negSucc k => exact absurd h0 (by simp [Int.negSucc_lt_zero])

theorem result_text_length (d : Int) (h0 : 0 ≤ d) :
    (if d > 300000 then "time limit" else toString d).length ≤ 10 ∧
      (d ≤ 300000 →
        (if d > 300000 then "time limit" else toString d).length ≤ 6) := by
  have h10 : "time limit".length = 10 := by decide
  by_cases hd : d > 300000
  · rw [if_pos hd]
    exact ⟨by omega, fun h => by omega⟩
  · rw [if_neg hd]
    have := toString_length_le d h0 6 (by norm_num) (by norm_num; omega)
    exact ⟨by omega, fun _ => this⟩

/-! ## Counting sort: stability -/

theorem filter_buckets (exp : Int) (A : List Int) (d : Int) :
    ∀ k : Nat, (buckets exp A k).filter (fun a => decide (dig exp a = d))
      = if 0 ≤ d ∧ d < (k : Int) then A.filter (fun a => decide (dig exp a = d)) else [] := by
  intro k
  induction k with
  | zero =>
    have : ¬ (0 ≤ d ∧ d < ((0 : Nat) : Int)) := by push_cast; omega
    rw [if_neg this]
    simp [buckets]
  | succ k ih =>
    rw [buckets, List.filter_append, ih, List.filter_filter]
    by_cases hdk : d = (k : Int)
    · have h1 : ¬ (0 ≤ d ∧ d < (k : Int)) := by omega
      have h2 : 0 ≤ d ∧ d < ((k + 1 : Nat) : Int) := by push_cast; omega
      rw [if_neg h1, if_pos h2, List.nil_append]
      apply List.filter_congr
      intro a _
      subst hdk
      simp
    · have hnil : A.filter (fun a => decide (dig exp a = d) && decide (dig exp a = (k : Int)))
          = [] := by
        rw [List.filter_eq_nil_iff]
        intro a _
        simp only [Bool.and_eq_true, decide_eq_true_eq, not_and]
        intro h1 h2
        exact hdk (h1.symm.trans h2)
      rw [hnil, List.append_nil]
      by_cases h1 : 0 ≤ d ∧ d < (k : Int)
      · have h2 : 0 ≤ d ∧ d < ((k + 1 : Nat) : Int) := by push_cast; omega
        rw [if_pos h1, if_pos h2]
      · have h2 : ¬ (0 ≤ d ∧ d < ((k + 1 : Nat) : Int)) := by push_cast; omega
        rw [if_neg h1, if_neg h2]

theorem buckets_stable (exp : Int) (he : 0 < exp) (A : List Int) (hnn : ∀ a ∈ A, 0 ≤ a)
    (d : Int) :
    (buckets exp A 10).filter (fun a => decide (dig exp a = d))
      = A.filter (fun a => decide (dig exp a = d)) := by
  rw [filter_buckets]
  by_cases h : 0 ≤ d ∧ d < ((10 : Nat) : Int)
  · rw [if_pos h]
  · rw [if_neg h]
    symm
    rw [List.filter_eq_nil_iff]
    intro a ha
    have := dig_range exp a (hnn a ha) he
    simp only [decide_eq_true_eq]
    intro hd
    apply h
    push_cast
    omega

theorem buckets_keys_sorted (exp : Int) (A : List Int) :
    List.Sorted (· ≤ ·) ((buckets exp A 10).map (dig exp)) := by
  have h := buckets_pairwise exp A (fun _ => 0) (dig exp)
    (List.pairwise_of_forall (fun _ _ => le_refl _))
    (fun a _ b _ hlt => le_of_lt hlt) (fun a _ b _ heq _ => le_of_eq heq) 10
  exact List.pairwise_map.2 h

/-! ## Counting sort: the recorded indices -/

theorem countLoopLog_erase (A : List Int) (n exp : Int) :
    ∀ (fuel : Nat) (count : List Int) (i : Int),
      (countLoopLog fuel A count n exp i).map Prod.fst = countLoop fuel A count n exp i := by
  intro fuel
  induction fuel with
  | zero => intro count i; rfl
  | succ f ih =>
    intro count i
    rw [countLoopLog, countLoop]
    by_cases hi : i < n
    · rw [if_pos hi, if_pos hi]
      cases rd A i with
      | none => rfl
      | some ai =>
        rw [Option.some_bind, Option.some_bind]
        cases digit ai exp with
        | none => rfl
        | some d =>
          rw [Option.some_bind, Option.some_bind]
          cases rd count d with
          | none => rfl
          | some c =>
            rw [Option.some_bind, Option.some_bind]
            cases wr count d (c + 1) with
            | none => rfl
            | some count1 =>
              rw [Option.some_bind, Option.some_bind, Option.map_map, ← ih count1 (i + 1)]
              rfl
    · rw [if_neg hi, if_neg hi]
      rfl

theorem placeLoopLog_erase (A : List Int) (exp : Int) :
    ∀ (fuel : Nat) (output count : List Int) (i : Int),
      (placeLoopLog fuel A output count exp i).map (fun s => (s.1, s.2.1))
        = placeLoop fuel A output count exp i := by
  intro fuel
  induction fuel with
  | zero => intro output count i; rfl
  | succ f ih =>
    intro output count i
    rw [placeLoopLog, placeLoop]
    by_cases hi : i ≥ 0
    · rw [if_pos hi, if_pos hi]
      cases rd A i with
      | none => rfl
      | some ai =>
        simp only [Option.some_bind]
        cases digit ai exp with
        | none => rfl
        | some d =>
          simp only [Option.some_bind]
          cases rd count d with
          | none => rfl
          | some c =>
            simp only [Option.some_bind]
            cases wr output (c - 1) ai with
            | none => rfl
            | some output1 =>
              simp only [Option.some_bind]
              cases wr count d (c - 1) with
              | none => rfl
              | some count1 =>
                simp only [Option.some_bind, Option.map_map]
                rw [← ih output1 count1 (i - 1)]
                rfl
    · rw [if_neg hi, if_neg hi]
      rfl

theorem countingSortLog_erase (A : List Int) (n exp : Int) :
    (countingSortLog A n exp).map (fun s => s.1) = countingSort A n exp := by
  unfold countingSortLog countingSort
  cases newArr n with
  | none => rfl
  | some output0 =>
    rw [Option.some_bind, Option.some_bind,
      ← countLoopLog_erase A n exp (n.toNat + 1) (List.replicate 10 0) 0]
    cases countLoopLog (n.toNat + 1) A (List.replicate 10 0) n exp 0 with
    | none => rfl
    | some s1 =>
      rw [Option.some_bind, Option.map_some', Option.some_bind]
      cases prefixLoop 10 s1.1 1 with
      | none => rfl
      | some count2 =>
        rw [Option.some_bind, Option.some_bind,
          ← placeLoopLog_erase A exp (n.toNat + 1) output0 count2 (n - 1)]
        cases placeLoopLog (n.toNat + 1) A output0 count2 exp (n - 1) with
        | none => rfl
        | some s =>
          rw [Option.some_bind, Option.map_some', Option.some_bind, Option.map_map]
          cases copyLoop (n.toNat + 1) s.1 A (fun i => i) n 0 with
          | none => rfl
          | some A1 => rfl

theorem countLoopLog_bounds (A : List Int) (n exp : Int) :
    ∀ (fuel : Nat) (count : List Int) (i : Int) (c' ds : List Int),
      countLoopLog fuel A count n exp i = some (c', ds) →
      c'.length = count.length ∧ ds.length = (n - i).toNat ∧
        ∀ d ∈ ds, 0 ≤ d ∧ d < count.length := by
  intro fuel
  induction fuel with
  | zero => intro count i c' ds h; simp [countLoopLog] at h
  | succ f ih =>
    intro count i c' ds h
    rw [countLoopLog] at h
    by_cases hi : i < n
    · rw [if_pos hi] at h
      simp only [Option.bind_eq_some, Option.map_eq_some'] at h
      obtain ⟨ai, _, d, _, c, hrc, count1, hw, s, hrec, hs⟩ := h
      obtain ⟨hl, hlen, hb⟩ := ih count1 (i + 1) s.1 s.2 hrec
      have hwl := wr_length hw
      have hs1 : s.1 = c' := congrArg Prod.fst hs
      have hs2 : d :: s.2 = ds := congrArg Prod.snd hs
      subst hs1 hs2
      refine ⟨by rw [hl, hwl.1], by rw [List.length_cons, hlen]; omega, ?_⟩
      intro e he
      rcases List.mem_cons.1 he with he | he
      · subst he; exact rd_bounds hrc
      · have := hb e he
        rw [hwl.1] at this
        exact this
    · rw [if_neg hi] at h
      have h' := Option.some.inj h
      have hs1 : count = c' := congrArg Prod.fst h'
      have hs2 : [] = ds := congrArg Prod.snd h'
      subst hs1 hs2
      exact ⟨rfl, by simp; omega, by simp⟩

theorem placeLoopLog_bounds (A : List Int) (exp : Int) :
    ∀ (fuel : Nat) (output count : List Int) (i : Int) (o' c' ds ws : List Int),
      placeLoopLog fuel A output count exp i = some (o', c', ds, ws) →
      o'.length = output.length ∧ c'.length = count.length ∧
        ds.length = (i + 1).toNat ∧ ws.length = (i + 1).toNat ∧
        (∀ d ∈ ds, 0 ≤ d ∧ d < count.length) ∧ ∀ w ∈ ws, 0 ≤ w ∧ w < output.length := by
  intro fuel
  induction fuel with
  | zero => intro output count i o' c' ds ws h; simp [placeLoopLog] at h
  | succ f ih =>
    intro output count i o' c' ds ws h
    rw [placeLoopLog] at h
    by_cases hi : i ≥ 0
    · rw [if_pos hi] at h
      simp only [Option.bind_eq_some, Option.map_eq_some'] at h
      obtain ⟨ai, _, d, _, c, hrc, output1, hwo, c2, _, count1, hwc, s, hrec, hs⟩ := h
      obtain ⟨hlo, hlc, hlds, hlws, hbd, hbw⟩ :=
        ih output1 count1 (i - 1) s.1 s.2.1 s.2.2.1 s.2.2.2 hrec
      have hwol := wr_length hwo
      have hwcl := wr_length hwc
      have hs1 : s.1 = o' := congrArg Prod.fst hs
      have hs2 : s.2.1 = c' := congrArg (fun t => t.2.1) hs
      have hs3 : d :: s.2.2.1 = ds := congrArg (fun t => t.2.2.1) hs
      have hs4 : (c - 1) :: s.2.2.2 = ws := congrArg (fun t => t.2.2.2) hs
      subst hs1 hs2 hs3 hs4
      refine ⟨by rw [hlo, hwol.1], by rw [hlc, hwcl.1],
        by rw [List.length_cons, hlds]; omega, by rw [List.length_cons, hlws]; omega,
        ?_, ?_⟩
      · intro e he
        rcases List.mem_cons.1 he with he | he
        · subst he; exact rd_bounds hrc
        · have := hbd e he
          rw [hwcl.1] at this
          exact this
      · intro w hw
        rcases List.mem_cons.1 hw with hw | hw
        · subst hw; exact hwol.2
        · have := hbw w hw
          rw [hwol.1] at this
          exact this
    · rw [if_neg hi] at h
      have h' := Option.some.inj h
      have hs1 : output = o' := congrArg Prod.fst h'
      have hs2 : count = c' := congrArg (fun t => t.2.1) h'
      have hs3 : [] = ds := congrArg (fun t => t.2.2.1) h'
      have hs4 : [] = ws := congrArg (fun t => t.2.2.2) h'
      subst hs1 hs2 hs3 hs4
      exact ⟨rfl, rfl, by simp; omega, by simp; omega, by simp, by simp⟩

theorem prefixLoop_length :
    ∀ (fuel : Nat) (count : List Int) (i : Int) (c' : List Int),
      prefixLoop fuel count i = some c' → c'.length = count.length := by
  intro fuel
  induction fuel with
  | zero => intro count i c' h; simp [prefixLoop] at h
  | succ f ih =>
    intro count i c' h
    rw [prefixLoop] at h
    by_cases hi : i < 10
    · rw [if_pos hi] at h
      simp only [Option.bind_eq_some] at h
      obtain ⟨ci, _, cp, _, count1, hw, hrec⟩ := h
      rw [ih count1 (i + 1) c' hrec, (wr_length hw).1]
    · rw [if_neg hi] at h
      rw [← Option.some.inj h]

theorem countingSortLog_bounds (A : List Int) (exp : Int) (B ds ws : List Int)
    (h : countingSortLog A A.length exp = some (B, ds, ws)) :
    ds.length = 2 * A.length ∧ ws.length = A.length ∧
      (∀ d ∈ ds, 0 ≤ d ∧ d ≤ 9) ∧ ∀ w ∈ ws, 0 ≤ w ∧ w < A.length := by
  unfold countingSortLog at h
  simp only [newArr_natCast, Option.some_bind, Int.toNat_ofNat, Option.bind_eq_some,
    Option.map_eq_some'] at h
  obtain ⟨s1, h1, count2, h2, s, h3, A1, _, hs⟩ := h
  obtain ⟨hl1, hlen1, hb1⟩ := countLoopLog_bounds A A.length exp _ _ 0 s1.1 s1.2 h1
  have hl2 := prefixLoop_length 10 s1.1 1 count2 h2
  obtain ⟨_, _, hlds, hlws, hbd, hbw⟩ :=
    placeLoopLog_bounds A exp _ _ _ _ s.1 s.2.1 s.2.2.1 s.2.2.2 h3
  have e2 : s1.2 ++ s.2.2.1 = ds := congrArg (fun t => t.2.1) hs
  have e3 : s.2.2.2 = ws := congrArg (fun t => t.2.2) hs
  subst e2 e3
  rw [List.length_replicate] at hl1 hb1 hbw
  rw [hl2, hl1] at hbd
  refine ⟨by rw [List.length_append, hlen1, hlds]; omega, by rw [hlws]; omega, ?_, hbw⟩
  intro d hd
  rcases List.mem_append.1 hd with hd | hd
  · have := hb1 d hd; omega
  · have := hbd d hd; omega

/-! ## Array generator -/

theorem genLoop_spec :
    ∀ (Z P : List Int) (rnd : Nat → Int) (fuel : Nat), Z.length + 1 ≤ fuel →
      genLoop fuel (P ++ Z) rnd ((P.length : Int) + Z.length) P.length
        = some (P ++ (List.range Z.length).map
              (fun k => Int.tmod (rnd k) (Int.tdiv INT_MAX 2)),
            fun k => rnd (k + Z.length)) := by
  intro Z
  induction Z with
  | nil =>
    intro P rnd fuel hf
    obtain ⟨f, rfl⟩ : ∃ f, fuel = f + 1 := ⟨fuel - 1, by omega⟩
    simp [genLoop]
  | cons z Z ih =>
    intro P rnd fuel hf
    obtain ⟨f, rfl⟩ : ∃ f, fuel = f + 1 := ⟨fuel - 1, by omega⟩
    have hlt : (P.length : Int) < (P.length : Int) + ((z :: Z).length : Int) := by simp
    have hih := ih (P ++ [Int.tmod (rnd 0) (Int.tdiv INT_MAX 2)]) (fun k => rnd (k + 1)) f
      (by simp at hf; omega)
    have e1 : P ++ Int.tmod (rnd 0) (Int.tdiv INT_MAX 2) :: Z
        = (P ++ [Int.tmod (rnd 0) (Int.tdiv INT_MAX 2)]) ++ Z := by simp
    have e2 : (P.length : Int) + ((z :: Z).length : Int)
        = ((P ++ [Int.tmod (rnd 0) (Int.tdiv INT_MAX 2)]).length : Int) + (Z.length : Int) := by
      simp; omega
    have e3 : (P.length : Int) + 1
        = ((P ++ [Int.tmod (rnd 0) (Int.tdiv INT_MAX 2)]).length : Int) := by simp
    rw [genLoop]
    simp only [hlt, if_true, wr_append_cons P Z z _ _ rfl, Option.some_bind]
    rw [e1, e2, e3, hih]
    congr 2
    rw [List.length_cons, List.range_succ_eq_map, List.map_cons, List.map_map,
      List.append_assoc]
    rfl

theorem generateRandomArray_spec (size : Nat) (rnd : Nat → Int) :
    generateRandomArray size rnd
      = some ((List.range size).map (fun k => Int.tmod (rnd k) (Int.tdiv INT_MAX 2)),
          fun k => rnd (k + size)) := by
  have h := genLoop_spec (List.replicate size 0) [] rnd (size + 1) (by simp)
  simp only [List.nil_append, List.length_nil, Nat.cast_zero, zero_add,
    List.length_replicate] at h
  unfold generateRandomArray
  rw [newArr_natCast, Option.some_bind, Int.toNat_ofNat, h]

theorem half_INT_MAX : Int.tdiv INT_MAX 2 = 1073741823 := by decide

theorem tmod_half_range (x : Int) (hx : 0 ≤ x) :
    0 ≤ Int.tmod x (Int.tdiv INT_MAX 2) ∧ Int.tmod x (Int.tdiv INT_MAX 2) < 1073741823 := by
  rw [half_INT_MAX]
  exact ⟨Int.tmod_nonneg _ hx, Int.tmod_lt_of_pos x (by norm_num)⟩

/-! ## The sweep of `main` -/

/-- C2: for every array `A` of `n >= 0` integers, `QuickSort(A, 0, n - 1)` returns and
leaves a non-decreasing permutation of the original array. -/
theorem C2_QuickSort_sorts (A : List Int) :
    ∃ B, QuickSort A 0 ((A.length : Int) - 1) = some B ∧
      List.Sorted (· ≤ ·) B ∧ B.Perm A :=
  QuickSort_spec A

/-- C3: for every array `A` of `n >= 0` integers, `mergeSort(A, 0, n - 1)` returns and
leaves a non-decreasing permutation of the original array. -/
theorem C3_mergeSort_sorts (A : List Int) :
    ∃ B, mergeSort A 0 ((A.length : Int) - 1) = some B ∧
      List.Sorted (· ≤ ·) B ∧ B.Perm A :=
  mergeSort_spec A

/-- C4: for every array `A` of `n >= 0` integers, `InsertionSort(A, n)` returns and leaves
a non-decreasing permutation of the original array. -/
theorem C4_InsertionSort_sorts (A : List Int) :
    ∃ B, InsertionSort A A.length = some B ∧ List.Sorted (· ≤ ·) B ∧ B.Perm A :=
  InsertionSort_spec A

/-- C6: for the sample `[1000000000]`, whose element lies in `[0, INT_MAX / 2)`, the last
`exp *= 10` of `RadixSort` yields `10^10` in exact arithmetic, which exceeds `INT_MAX`;
the 32-bit product is `1410065408` instead. -/
theorem C6_exp_exceeds_INT_MAX :
    (∀ a ∈ ([1000000000] : List Int), 0 ≤ a ∧ a < Int.tdiv INT_MAX 2) ∧
      getMax [1000000000] 1 = some 1000000000 ∧
      expValues 33 1000000000 1
        = [1, 10, 100, 1000, 10000, 100000, 1000000, 10000000, 100000000, 1000000000,
            10000000000] ∧
      ¬ (∀ e ∈ expValues 33 1000000000 1, e ≤ INT_MAX) ∧
      wrap32 (1000000000 * 10) = 1410065408 := by
  decide

/-- C9: for every elapsed duration `d` in milliseconds, each of `measureTime`,
`measureTimeMergeSort` and `measureTimeQuickSort` writes the text `time limit` if and only
if `d > 300000` and otherwise the decimal rendering of `d`; `d = 300000` gives `300000`,
`d = 0` gives `0`, and the three entry points write the same text for the same `d`. -/
theorem C9_timeout_classification (A : List Int) (d : Int) :
    ∃ m1 m2 m3, measureTime InsertionSort A A.length d = some m1 ∧
      measureTimeMergeSort A A.length d = some m2 ∧
      measureTimeQuickSort A A.length d = some m3 ∧
      (m1.result = "time limit" ↔ d > 300000) ∧
      (¬ d > 300000 → m1.result = toString d) ∧
      m2.result = m1.result ∧ m3.result = m1.result ∧
      (∀ sortFunc m, measureTime sortFunc A A.length d = some m → m.result = m1.result) ∧
      (d = 300000 → m1.result = "300000") ∧ (d = 0 → m1.result = "0") := by
  obtain ⟨B, hB, _, _⟩ := InsertionSort_spec A
  by_cases hd : d > 300000
  · refine ⟨⟨A, A, "time limit"⟩, ⟨A, A, "time limit"⟩, ⟨A, A, "time limit"⟩, ?_, ?_, ?_,
      ?_, ?_, rfl, rfl, ?_, ?_, ?_⟩
    · rw [measureTime_eq, hB, Option.some_bind, if_pos hd]
    · rw [measureTimeMergeSort_eq, if_pos hd]
    · rw [measureTimeQuickSort_eq, if_pos hd]
    · exact ⟨fun _ => hd, fun _ => rfl⟩
    · intro h; exact absurd hd h
    · intro f m hm
      rw [measureTime_eq, if_pos hd] at hm
      cases hf : f A A.length with
      | none => rw [hf] at hm; simp at hm
      | some x =>
        rw [hf, Option.some_bind] at hm
        rw [← Option.some.inj hm]
    · intro h; omega
    · intro h; omega
  · refine ⟨⟨A, A, toString d⟩, ⟨A, A, toString d⟩, ⟨A, A, toString d⟩, ?_, ?_, ?_,
      ?_, ?_, rfl, rfl, ?_, ?_, ?_⟩
    · rw [measureTime_eq, hB, Option.some_bind, if_neg hd]
    · rw [measureTimeMergeSort_eq, if_neg hd]
    · rw [measureTimeQuickSort_eq, if_neg hd]
    · exact ⟨fun h => absurd h (toString_ne_time_limit d (by omega)), fun h => absurd h hd⟩
    · intro _; rfl
    · intro f m hm
      rw [measureTime_eq, if_neg hd] at hm
      cases hf : f A A.length with
      | none => rw [hf] at hm; simp at hm
      | some x =>
        rw [hf, Option.some_bind] at hm
        rw [← Option.some.inj hm]
    · intro h; subst h; rfl
    · intro h; subst h; rfl

/-- C13: for every array `A` and indices `0 <= p <= r < n`, `partition(A, p, r)` returns an
index `q` with `p <= q <= r` such that afterwards `A[q]` is the original `A[r]` (the pivot),
every element of `A[p..q-1]` is at most the pivot, every element of `A[q+1..r]` is greater
than the pivot, `A[p..r]` is a permutation of its original contents, and every element
outside `[p, r]` is unchanged. -/
theorem C13_partition_postcondition (A : List Int) (p r : Int) (h0 : 0 ≤ p) (hpr : p ≤ r)
    (hr : r < A.length) :
    ∃ A' q pivot, partition A p r = some (A', q) ∧ rd A r = some pivot ∧
      p ≤ q ∧ q ≤ r ∧ A'.length = A.length ∧ rd A' q = some pivot ∧
      (∀ x ∈ slice A' p (q - 1), x ≤ pivot) ∧ (∀ x ∈ slice A' (q + 1) r, pivot < x) ∧
      (slice A' p r).Perm (slice A p r) ∧
      (∀ i : Int, i < p ∨ r < i → rd A' i = rd A i) :=
  partition_range A p r h0 hpr hr

/-- C13 applied to `[7, 3, 9, 1, 5, 4, 0]` with `p = 1` and `r = 5`. -/
theorem C13_partition_postcondition_witness :
    (0 : Int) ≤ 1 ∧ (1 : Int) ≤ 5 ∧
      (5 : Int) < (([7, 3, 9, 1, 5, 4, 0] : List Int).length : Int) ∧
      ∃ A' q pivot, partition [7, 3, 9, 1, 5, 4, 0] 1 5 = some (A', q) ∧
        rd [7, 3, 9, 1, 5, 4, 0] 5 = some pivot ∧
        1 ≤ q ∧ q ≤ 5 ∧ A'.length = ([7, 3, 9, 1, 5, 4, 0] : List Int).length ∧
        rd A' q = some pivot ∧
        (∀ x ∈ slice A' 1 (q - 1), x ≤ pivot) ∧ (∀ x ∈ slice A' (q + 1) 5, pivot < x) ∧
        (slice A' 1 5).Perm (slice [7, 3, 9, 1, 5, 4, 0] 1 5) ∧
        (∀ i : Int, i < 1 ∨ 5 < i → rd A' i = rd [7, 3, 9, 1, 5, 4, 0] i) :=
  ⟨by decide, by decide, by decide,
    C13_partition_postcondition [7, 3, 9, 1, 5, 4, 0] 1 5 (by decide) (by decide)
      (by decide)⟩

/-- C15: for every array `A` and indices `0 <= p <= q < r < n` such that `A[p..q]` and
`A[q+1..r]` are non-decreasing, `merge(A, p, q, r)` leaves `A[p..r]` non-decreasing and a
permutation of its original contents, namely the merge of the two halves that takes the
left element when the two heads are equal (on equal heads the main loop advances `i` and
not `j`), and leaves every element outside `[p, r]` unchanged. -/
theorem C15_merge_step (A : List Int) (p q r : Int) (h0 : 0 ≤ p) (hpq : p ≤ q)
    (hqr : q < r) (hr : r < A.length) (hL : List.Sorted (· ≤ ·) (slice A p q))
    (hR : List.Sorted (· ≤ ·) (slice A (q + 1) r)) :
    ∃ A', merge A p q r = some A' ∧ A'.length = A.length ∧
      List.Sorted (· ≤ ·) (slice A' p r) ∧ (slice A' p r).Perm (slice A p r) ∧
      slice A' p r = List.merge (slice A p q) (slice A (q + 1) r) leB ∧
      (∀ (x : Int) (l1 l2 : List Int),
        List.merge (x :: l1) (x :: l2) leB = x :: List.merge l1 (x :: l2) leB) ∧
      (∀ (fuel : Nat) (B L R : List Int) (n1 n2 i j k x : Int), i < n1 → j < n2 →
        rd L i = some x → rd R j = some x →
        mergeMain (fuel + 1) B L R n1 n2 i j k
          = (wr B k x).bind fun B1 => mergeMain fuel B1 L R n1 n2 (i + 1) j (k + 1)) ∧
      (∀ i : Int, i < p ∨ r < i → rd A' i = rd A i) := by
  obtain ⟨A', hm, hlen, hsl, hsplit, hout⟩ := merge_range A p q r h0 hpq hqr hr
  refine ⟨A', hm, hlen, ?_, ?_, hsl, ?_, ?_, hout⟩
  · rw [hsl]; exact sorted_merge_leB hL hR
  · rw [hsl, hsplit]; exact List.perm_merge leB _ _
  · intro x l1 l2
    rw [List.cons_merge_cons]
    simp [leB]
  · intro fuel B L R n1 n2 i j k x hi hj hri hrj
    rw [mergeMain]
    simp only [hi, hj, and_self, if_true, hri, hrj, Option.some_bind, le_refl]

/-- C15 applied to `[9, 2, 5, 5, 1, 5, 8, 0]` with `p = 1`, `q = 3` and `r = 6`. -/
theorem C15_merge_step_witness :
    (0 : Int) ≤ 1 ∧ (1 : Int) ≤ 3 ∧ (3 : Int) < 6 ∧
      (6 : Int) < (([9, 2, 5, 5, 1, 5, 8, 0] : List Int).length : Int) ∧
      List.Sorted (· ≤ ·) (slice [9, 2, 5, 5, 1, 5, 8, 0] 1 3) ∧
      List.Sorted (· ≤ ·) (slice [9, 2, 5, 5, 1, 5, 8, 0] (3 + 1) 6) ∧
      ∃ A', merge [9, 2, 5, 5, 1, 5, 8, 0] 1 3 6 = some A' ∧
        A'.length = ([9, 2, 5, 5, 1, 5, 8, 0] : List Int).length ∧
        List.Sorted (· ≤ ·) (slice A' 1 6) ∧
        (slice A' 1 6).Perm (slice [9, 2, 5, 5, 1, 5, 8, 0] 1 6) ∧
        slice A' 1 6 = List.merge (slice [9, 2, 5, 5, 1, 5, 8, 0] 1 3)
          (slice [9, 2, 5, 5, 1, 5, 8, 0] (3 + 1) 6) leB ∧
        (∀ (x : Int) (l1 l2 : List Int),
          List.merge (x :: l1) (x :: l2) leB = x :: List.merge l1 (x :: l2) leB) ∧
        (∀ (fuel : Nat) (B L R : List Int) (n1 n2 i j k x : Int), i < n1 → j < n2 →
          rd L i = some x → rd R j = some x →
          mergeMain (fuel + 1) B L R n1 n2 i j k
            = (wr B k x).bind fun B1 => mergeMain fuel B1 L R n1 n2 (i + 1) j (k + 1)) ∧
        (∀ i : Int, i < 1 ∨ 6 < i → rd A' i = rd [9, 2, 5, 5, 1, 5, 8, 0] i) :=
  ⟨by decide, by decide, by decide, by decide, by decide, by decide,
    C15_merge_step [9, 2, 5, 5, 1, 5, 8, 0] 1 3 6 (by decide) (by decide) (by decide)
      (by decide) (by decide) (by decide)⟩

/-- C18: for every array `A` of length `n` and indices `0 <= p <= r < n`, `mergeSort(A, p, r)`
and `QuickSort(A, p, r)` return, with the same result for every larger recursion budget;
the midpoint `q = p + (r - p) / 2` satisfies `p <= q < r` and the index `q` returned by
`partition` satisfies `p <= q <= r`, so every recursive call is on a strictly shorter
range; and whenever `p >= r` both return at once with the array unchanged. -/
theorem C18_recursive_sorts_terminate (A : List Int) (p r : Int) (h0 : 0 ≤ p)
    (hpr : p ≤ r) (hr : r < A.length) :
    (∃ B, mergeSort A p r = some B ∧
        ∀ fuel : Nat, (r - p + 1).toNat + 1 ≤ fuel → mergeSortAux fuel A p r = some B) ∧
      (∃ B, QuickSort A p r = some B ∧
        ∀ fuel : Nat, (r - p + 1).toNat + 1 ≤ fuel → QuickSortAux fuel A p r = some B) ∧
      (p < r → p ≤ p + Int.tdiv (r - p) 2 ∧ p + Int.tdiv (r - p) 2 < r) ∧
      (∃ A' q, partition A p r = some (A', q) ∧ p ≤ q ∧ q ≤ r) ∧
      (∀ p' r' : Int, r' ≤ p' → mergeSort A p' r' = some A ∧ QuickSort A p' r' = some A) := by
  refine ⟨mergeSort_range A p r h0 hpr hr, QuickSort_range A p r h0 hpr hr, ?_, ?_,
    fun p' r' h => sorts_trivial_range A p' r' h⟩
  · intro hlt
    rw [Int.tdiv_eq_ediv (by omega) (by norm_num)]
    omega
  · obtain ⟨A', q, pivot, hpart, _, h1, h2, _⟩ := partition_range A p r h0 hpr hr
    exact ⟨A', q, hpart, h1, h2⟩

/-- C18 applied to `[7, 3, 9, 1, 5, 4, 0]` with `p = 1` and `r = 5`. -/
theorem C18_recursive_sorts_terminate_witness :
    (0 : Int) ≤ 1 ∧ (1 : Int) ≤ 5 ∧
      (5 : Int) < (([7, 3, 9, 1, 5, 4, 0] : List Int).length : Int) ∧
      (∃ B, mergeSort [7, 3, 9, 1, 5, 4, 0] 1 5 = some B ∧
        ∀ fuel : Nat, ((5 : Int) - 1 + 1).toNat + 1 ≤ fuel →
          mergeSortAux fuel [7, 3, 9, 1, 5, 4, 0] 1 5 = some B) ∧
      (∃ B, QuickSort [7, 3, 9, 1, 5, 4, 0] 1 5 = some B ∧
        ∀ fuel : Nat, ((5 : Int) - 1 + 1).toNat + 1 ≤ fuel →
          QuickSortAux fuel [7, 3, 9, 1, 5, 4, 0] 1 5 = some B) ∧
      ((1 : Int) < 5 → (1 : Int) ≤ 1 + Int.tdiv (5 - 1) 2 ∧ 1 + Int.tdiv (5 - 1) 2 < 5) ∧
      (∃ A' q, partition [7, 3, 9, 1, 5, 4, 0] 1 5 = some (A', q) ∧ 1 ≤ q ∧ q ≤ 5) ∧
      (∀ p' r' : Int, r' ≤ p' →
        mergeSort [7, 3, 9, 1, 5, 4, 0] p' r' = some [7, 3, 9, 1, 5, 4, 0] ∧
        QuickSort [7, 3, 9, 1, 5, 4, 0] p' r' = some [7, 3, 9, 1, 5, 4, 0]) :=
  ⟨by decide, by decide, by decide,
    C18_recursive_sorts_terminate [7, 3, 9, 1, 5, 4, 0] 1 5 (by decide) (by decide)
      (by decide)⟩

/-- C19: for every array `A` of length `n >= 0`, `InsertionSort(A, n)`,
`mergeSort(A, 0, n - 1)` and `QuickSort(A, 0, n - 1)` run to their end; as a read or write
succeeds exactly when its index is inside the array it addresses and an allocation exactly
when its size is not negative, every access of these runs (those to the buffers `L` and
`R` of `merge` and the swaps of `partition` included) is in bounds. -/
theorem C19_comparison_sorts_in_bounds (A : List Int) :
    (InsertionSort A A.length).isSome = true ∧
      (mergeSort A 0 ((A.length : Int) - 1)).isSome = true ∧
      (QuickSort A 0 ((A.length : Int) - 1)).isSome = true ∧
      (∀ (L : List Int) (i : Int), (rd L i).isSome = true ↔ 0 ≤ i ∧ i < L.length) ∧
      (∀ (L : List Int) (i v : Int), (wr L i v).isSome = true ↔ 0 ≤ i ∧ i < L.length) ∧
      (∀ n : Int, (newArr n).isSome = true ↔ 0 ≤ n) ∧
      (∀ n : Int, ∀ L, newArr n = some L → (L.length : Int) = n) ∧
      InsertionSort [] 0 = some [] ∧ mergeSort [] 0 (0 - 1) = some [] ∧
      QuickSort [] 0 (0 - 1) = some [] ∧
      (∀ a : Int, InsertionSort [a] 1 = some [a] ∧ mergeSort [a] 0 (1 - 1) = some [a] ∧
        QuickSort [a] 0 (1 - 1) = some [a]) := by
  obtain ⟨B1, h1, _, _⟩ := InsertionSort_spec A
  obtain ⟨B2, h2, _, _⟩ := mergeSort_spec A
  obtain ⟨B3, h3, _, _⟩ := QuickSort_spec A
  refine ⟨by rw [h1]; rfl, by rw [h2]; rfl, by rw [h3]; rfl, rd_isSome_iff, wr_isSome_iff,
    newArr_isSome_iff, ?_, by decide, by decide, by decide, ?_⟩
  · intro n L hL
    unfold newArr at hL
    by_cases hn : 0 ≤ n
    · rw [if_pos hn] at hL
      rw [← Option.some.inj hL, List.length_replicate]
      omega
    · rw [if_neg hn] at hL; simp at hL
  · intro a
    have s1 := InsertionSort_sorted [a] (by simp)
    have s2 := mergeSort_sorted [a] (by simp)
    have s3 := QuickSort_sorted [a] (by simp)
    exact ⟨by simpa using s1, by simpa using s2, by simpa using s3⟩

/-- C20: for every elapsed duration `d >= 0`, the text a measurement function writes into
`result` has at most 10 characters (at most 6 when `d <= 300000`, the 10 characters of
`time limit` otherwise), so with the terminating NUL it fits a buffer of 20 bytes. -/
theorem C20_result_fits_buffer (d : Int) (hd : 0 ≤ d) :
    (∀ sortFunc A n m, measureTime sortFunc A n d = some m →
        m.result.length ≤ 10 ∧ (d ≤ 300000 → m.result.length ≤ 6) ∧
        (300000 < d → m.result = "time limit") ∧ m.result.length + 1 ≤ 20) ∧
      (∀ A n m, measureTimeMergeSort A n d = some m →
        m.result.length ≤ 10 ∧ (d ≤ 300000 → m.result.length ≤ 6) ∧
        (300000 < d → m.result = "time limit") ∧ m.result.length + 1 ≤ 20) ∧
      (∀ A n m, measureTimeQuickSort A n d = some m →
        m.result.length ≤ 10 ∧ (d ≤ 300000 → m.result.length ≤ 6) ∧
        (300000 < d → m.result = "time limit") ∧ m.result.length + 1 ≤ 20) ∧
      "time limit".length = 10 := by
  have key : ∀ m : Measurement,
      m.result = (if d > 300000 then "time limit" else toString d) →
      m.result.length ≤ 10 ∧ (d ≤ 300000 → m.result.length ≤ 6) ∧
        (300000 < d → m.result = "time limit") ∧ m.result.length + 1 ≤ 20 := by
    intro m hm
    have h := result_text_length d hd
    rw [← hm] at h
    refine ⟨h.1, h.2, ?_, by have := h.1; omega⟩
    intro hlt
    rw [hm, if_pos hlt]
  exact ⟨fun f A n m h => key m (measureTime_result f A n d m h),
    fun A n m h => key m (measureTimeMergeSort_result A n d m h),
    fun A n m h => key m (measureTimeQuickSort_result A n d m h), by decide⟩

/-- C20 applied to the duration `300000` and a measurement of `[3, 1, 2]`. -/
theorem C20_result_fits_buffer_witness :
    (0 : Int) ≤ 300000 ∧
      ∃ m, measureTimeQuickSort [3, 1, 2] 3 300000 = some m ∧ m.result = "300000" ∧
        m.result.length ≤ 10 ∧ ((300000 : Int) ≤ 300000 → m.result.length ≤ 6) ∧
        ((300000 : Int) < 300000 → m.result = "time limit") ∧ m.result.length + 1 ≤ 20 :=
  ⟨by decide, ⟨⟨[3, 1, 2], [3, 1, 2], "300000"⟩, by rfl, rfl,
    (C20_result_fits_buffer 300000 (by decide)).2.2.1 [3, 1, 2] 3 _ (by rfl)⟩⟩

/-- C14: for every array `A` of `n` non-negative integers and every `exp >= 1`,
`countingSort(A, n, exp)` returns and leaves a permutation of the original array along
which the keys `(A[i] / exp) % 10` are non-decreasing, and for every key the elements with
that key stand in the same order as before the pass. -/
theorem C14_countingSort_stable (A : List Int) (exp : Int) (hA : ∀ a ∈ A, 0 ≤ a)
    (he : 1 ≤ exp) :
    ∃ B, countingSort A A.length exp = some B ∧ B.Perm A ∧
      List.Sorted (· ≤ ·) (B.map (dig exp)) ∧
      (∀ d : Int, B.filter (fun a => decide (dig exp a = d))
        = A.filter (fun a => decide (dig exp a = d))) ∧
      (∀ a ∈ A, digit a exp = some (dig exp a)) :=
  ⟨buckets exp A 10, countingSort_spec exp (by omega) A hA,
    buckets_perm exp (by omega) A hA, buckets_keys_sorted exp A,
    fun d => buckets_stable exp (by omega) A hA d,
    fun a _ => digit_pos a exp (by omega)⟩

/-- C14 applied to `[170, 45, 75, 90, 802, 24, 2, 66]` and `exp = 10`. -/
theorem C14_countingSort_stable_witness :
    (∀ a ∈ ([170, 45, 75, 90, 802, 24, 2, 66] : List Int), 0 ≤ a) ∧ (1 : Int) ≤ 10 ∧
      ∃ B, countingSort [170, 45, 75, 90, 802, 24, 2, 66]
          (([170, 45, 75, 90, 802, 24, 2, 66] : List Int).length : Int) 10 = some B ∧
        B.Perm [170, 45, 75, 90, 802, 24, 2, 66] ∧
        List.Sorted (· ≤ ·) (B.map (dig 10)) ∧
        (∀ d : Int, B.filter (fun a => decide (dig 10 a = d))
          = ([170, 45, 75, 90, 802, 24, 2, 66] : List Int).filter
              (fun a => decide (dig 10 a = d))) ∧
        (∀ a ∈ ([170, 45, 75, 90, 802, 24, 2, 66] : List Int),
          digit a 10 = some (dig 10 a)) :=
  ⟨by decide, by decide,
    C14_countingSort_stable [170, 45, 75, 90, 802, 24, 2, 66] 10 (by decide) (by decide)⟩

/-- C17: for every array `A` of `n` non-negative integers (`n >= 1` or not) and every
`exp >= 1`, `countingSort(A, n, exp)` runs to its end, every bucket index `(A[i] / exp) % 10` it
computes lies in `0..9` and every index `count[digit] - 1` of `output` it writes lies in
`[0, n)`; whereas for `[-5, 3]` with `exp = 1` the first bucket index is `-5` and the run
fails. -/
theorem C17_radix_index_safety (A : List Int) (exp : Int)
    (hA : ∀ a ∈ A, 0 ≤ a) (he : 1 ≤ exp) :
    (∃ B ds ws, countingSortLog A A.length exp = some (B, ds, ws) ∧
        countingSort A A.length exp = some B ∧
        ds.length = 2 * A.length ∧ ws.length = A.length ∧
        (∀ d ∈ ds, 0 ≤ d ∧ d ≤ 9) ∧ (∀ w ∈ ws, 0 ≤ w ∧ w < A.length)) ∧
      (∀ a ∈ A, digit a exp = some (dig exp a) ∧ 0 ≤ dig exp a ∧ dig exp a ≤ 9) ∧
      (∀ (A0 : List Int) (n0 exp0 : Int),
        (countingSortLog A0 n0 exp0).map (fun s => s.1) = countingSort A0 n0 exp0) ∧
      digit (-5) 1 = some (-5) ∧ countingSort [-5, 3] 2 1 = none := by
  have hcs := countingSort_spec exp (by omega) A hA
  have her := countingSortLog_erase A A.length exp
  rw [hcs] at her
  obtain ⟨s, hs, hs1⟩ := Option.map_eq_some'.1 her
  obtain ⟨B, ds, ws⟩ := s
  have hB : B = buckets exp A 10 := hs1
  subst hB
  obtain ⟨h1, h2, h3, h4⟩ := countingSortLog_bounds A exp _ ds ws hs
  refine ⟨⟨_, ds, ws, hs, hcs, h1, h2, h3, h4⟩, ?_, countingSortLog_erase, by decide,
    by decide⟩
  intro a ha
  have := dig_range exp a (hA a ha) (by omega)
  exact ⟨digit_pos a exp (by omega), this.1, by omega⟩

/-- C17 applied to `[170, 45, 75, 90, 802, 24, 2, 66]` and `exp = 10`. -/
theorem C17_radix_index_safety_witness :
    ([170, 45, 75, 90, 802, 24, 2, 66] : List Int) ≠ [] ∧
      (∀ a ∈ ([170, 45, 75, 90, 802, 24, 2, 66] : List Int), 0 ≤ a) ∧ (1 : Int) ≤ 10 ∧
      countingSortLog [170, 45, 75, 90, 802, 24, 2, 66] 8 10
        = some ([802, 2, 24, 45, 66, 170, 75, 90],
            [7, 4, 7, 9, 0, 2, 0, 6, 6, 0, 2, 0, 9, 7, 4, 7], [4, 1, 2, 0, 7, 6, 3, 5]) ∧
      ∃ B ds ws, countingSortLog [170, 45, 75, 90, 802, 24, 2, 66]
          (([170, 45, 75, 90, 802, 24, 2, 66] : List Int).length : Int) 10
            = some (B, ds, ws) ∧
        countingSort [170, 45, 75, 90, 802, 24, 2, 66]
          (([170, 45, 75, 90, 802, 24, 2, 66] : List Int).length : Int) 10 = some B ∧
        ds.length = 2 * ([170, 45, 75, 90, 802, 24, 2, 66] : List Int).length ∧
        ws.length = ([170, 45, 75, 90, 802, 24, 2, 66] : List Int).length ∧
        (∀ d ∈ ds, 0 ≤ d ∧ d ≤ 9) ∧
        (∀ w ∈ ws, 0 ≤ w ∧
          w < (([170, 45, 75, 90, 802, 24, 2, 66] : List Int).length : Int)) :=
  ⟨by decide, by decide, by decide, by decide,
    (C17_radix_index_safety [170, 45, 75, 90, 802, 24, 2, 66] 10 (by decide)
      (by decide)).1⟩

/-- C11: for every `size >= 0` and every sequence of non-negative values returned by
`rand()`, `generateRandomArray(size)` returns an array of exactly `size` elements, the
`i`-th being the `i`-th value of `rand()` modulo `INT_MAX / 2`, so that every element `x`
satisfies `0 <= x < INT_MAX / 2 = 1073741823`. -/
theorem C11_generateRandomArray_range (size : Int) (rnd : Nat → Int) (hs : 0 ≤ size)
    (hr : ∀ k, 0 ≤ rnd k) :
    ∃ arr rnd', generateRandomArray size rnd = some (arr, rnd') ∧
      (arr.length : Int) = size ∧
      (∀ i : Nat, i < arr.length →
        arr[i]? = some (Int.tmod (rnd i) (Int.tdiv INT_MAX 2))) ∧
      (∀ x ∈ arr, 0 ≤ x ∧ x < Int.tdiv INT_MAX 2) ∧
      Int.tdiv INT_MAX 2 = 1073741823 ∧
      (∀ k, rnd' k = rnd (k + arr.length)) := by
  obtain ⟨n, hn⟩ : ∃ n : Nat, size = (n : Int) := ⟨size.toNat, by omega⟩
  subst hn
  refine ⟨_, _, generateRandomArray_spec n rnd, by simp, ?_, ?_, half_INT_MAX, ?_⟩
  · intro i hi
    have hi' : i < n := by simpa using hi
    simp [List.getElem?_map, List.getElem?_range hi']
  · intro x hx
    obtain ⟨k, _, hk⟩ := List.mem_map.1 hx
    have := tmod_half_range (rnd k) (hr k)
    rw [hk] at this
    rw [half_INT_MAX]
    exact this
  · intro k
    simp

/-- C11 applied to `size = 3` and the values `1073741823, 1073741824, ...` of `rand()`. -/
theorem C11_generateRandomArray_range_witness :
    (0 : Int) ≤ 3 ∧ (∀ k : Nat, (0 : Int) ≤ 1073741823 + (k : Int)) ∧
      (generateRandomArray 3 (fun k => 1073741823 + (k : Int))).map (fun s => s.1)
        = some [0, 1, 2] ∧
      ∃ arr rnd', generateRandomArray 3 (fun k => 1073741823 + (k : Int)) = some (arr, rnd') ∧
        (arr.length : Int) = 3 ∧
        (∀ i : Nat, i < arr.length →
          arr[i]? = some (Int.tmod (1073741823 + (i : Int)) (Int.tdiv INT_MAX 2))) ∧
        (∀ x ∈ arr, 0 ≤ x ∧ x < Int.tdiv INT_MAX 2) ∧
        Int.tdiv INT_MAX 2 = 1073741823 ∧
        (∀ k, rnd' k = 1073741823 + ((k + arr.length : Nat) : Int)) :=
  ⟨by decide, fun k => Int.add_nonneg (by decide) (Int.ofNat_nonneg k), by decide,
    C11_generateRandomArray_range 3 (fun k => 1073741823 + (k : Int)) (by decide)
      (fun k => Int.add_nonneg (by decide) (Int.ofNat_nonneg k))⟩

end SortBattle
